import Mathlib

/-!
# hybrid_wordcount: a two-level parallel word count

A shallow embedding of `src/hybrid_wordcount.cpp` and theorems about it.

Modelling conventions.
* A `std::string` is a list of characters (`Str`); a character stands for one byte.
  The character classes are those of the "C" locale, so every code point above 127
  is neither white space, punctuation nor an upper-case letter.
* A `WordCountMap` (`unordered_map<string,int>`) is the list of its entries.  The
  operations of the source that can create an entry (`m[w]++`, `m[w] += k`) keep the
  keys distinct.  Two tables are equal (`operator==` of the source's container) when
  they hold the same `(word, count)` pairs: `TableEq`.  The iteration order of the
  container is unspecified: the model iterates in list order, and the theorems that
  speak about iteration order quantify over the permutations of the entries.
* A value of type `int` is an integer between `INT_MIN` and `INT_MAX`.  Arithmetic
  on `int` that can leave this range is reduced modulo `2^32` (`wrap_int`), as the
  two's complement machine does it; the conversion of a size to `int` is `to_int`;
  the formatted extraction `iss >> count` checks the range itself, and so does the
  model.  The functions `base`, `extra`, `part_start` and `part_count` are lines
  100-103 on a non-negative `total_lines`, where no operation leaves the range;
  `int_start` and `int_count` are the same lines on any `int`.
* The OpenMP region of `count_words` is a schedule: the list, in the order in which
  the threads enter the critical section, of the line indices each thread was
  given by the work-sharing loop.
-/

namespace HybridWordcount

/-- A `std::string`: a sequence of bytes. -/
abbrev Str := List Char

/-- The zero byte that terminates a C string. -/
def NUL : Char := Char.ofNat 0

/-- The function `isspace` in the "C" locale: the space and the characters 9 to 13
(tab, line feed, vertical tab, form feed, carriage return). -/
def isspace (c : Char) : Bool :=
  c.toNat == 32 || (9 ≤ c.toNat && c.toNat ≤ 13)

/-- The function `ispunct` in the "C" locale: the printable ASCII characters that are neither
alphanumeric nor the space. -/
def ispunct (c : Char) : Bool :=
  (33 ≤ c.toNat && c.toNat ≤ 47) || (58 ≤ c.toNat && c.toNat ≤ 64) ||
  (91 ≤ c.toNat && c.toNat ≤ 96) || (123 ≤ c.toNat && c.toNat ≤ 126)

/-- The function `isupper` in the "C" locale. -/
def isupper (c : Char) : Bool :=
  65 ≤ c.toNat && c.toNat ≤ 90

/-- The function `tolower` in the "C" locale. -/
def tolower (c : Char) : Char :=
  if isupper c then Char.ofNat (c.toNat + 32) else c

/-- The loop `while (iss >> word)` seen as a list: the maximal runs of characters
that are not white space, in order.  `cur` is the word being extracted. -/
def stream_words : Str → Str → List Str
  | [], cur => if cur = [] then [] else [cur]
  | c :: cs, cur =>
    if isspace c then
      (if cur = [] then stream_words cs [] else cur :: stream_words cs [])
    else stream_words cs (cur ++ [c])

/-- The body of the loop of `tokenize` up to the test: punctuation erased
(`remove_if ... ::ispunct`), then lower-cased (`transform ... ::tolower`). -/
def normalize (word : Str) : Str :=
  (word.filter (fun c => !ispunct c)).map tolower

/-- The function `tokenize` (lines 16-26). -/
def tokenize (text : Str) : List Str :=
  ((stream_words text []).map normalize).filter (fun w => !w.isEmpty)

/-- The type `unordered_map<string, int>`: the entries of the table. -/
abbrev WordCountMap := List (Str × Int)

/-- The lookup `m.find(w)`: the count stored under `w`, if there is an entry for `w`. -/
def find (m : WordCountMap) (w : Str) : Option Int :=
  match m with
  | [] => none
  | (w', c) :: rest => if w' = w then some c else find rest w

/-- The result of an `int` operation whose exact value is `k`: `k` modulo `2^32`,
read in two's complement. -/
def wrap_int (k : Int) : Int := (k + 2147483648) % 4294967296 - 2147483648

/-- The update `m[w] += k` on `int` counts: the sum is an `int`; `operator[]` creates
the entry with count 0 when it is missing, and `0 + k` is `k`. -/
def add_to (m : WordCountMap) (w : Str) (k : Int) : WordCountMap :=
  match m with
  | [] => [(w, 0 + k)]
  | (w', c) :: rest =>
    if w' = w then (w', wrap_int (c + k)) :: rest else (w', c) :: add_to rest w k

/-- Equality of tables: the same `(word, count)` pairs. -/
def TableEq (a b : WordCountMap) : Prop := ∀ w, find a w = find b w

/-- The well-formedness of a table: keys are unique. -/
def WF (m : WordCountMap) : Prop := (m.map Prod.fst).Nodup

instance (m : WordCountMap) : Decidable (WF m) := by unfold WF; infer_instance

/-- The function `merge_maps` (lines 48-52), also the loop of the critical section of
`count_words` (lines 41-43): `a[pair.first] += pair.second` for every pair of `b`. -/
def merge_maps (a b : WordCountMap) : WordCountMap :=
  b.foldl (fun acc pair => add_to acc pair.1 pair.2) a

/-- One execution of the body of the work-sharing loop (lines 35-38):
`private_map[word]++` for every token of the line. -/
def count_line (private_map : WordCountMap) (line : Str) : WordCountMap :=
  (tokenize line).foldl (fun m word => add_to m word 1) private_map

/-- The private table of one thread after the work-sharing loop, when the thread
was given the indices `shard` of `lines`, in this order. -/
def count_shard (lines : List Str) (shard : List Nat) : WordCountMap :=
  shard.foldl (fun m i => count_line m (lines.getD i [])) []

/-- The function `count_words` (lines 28-46) under a schedule: every thread fills its private
table, then the threads merge into `local_map` one at a time. -/
def count_words_sched (lines : List Str) (sched : List (List Nat)) : WordCountMap :=
  sched.foldl (fun local_map shard => merge_maps local_map (count_shard lines shard)) []

/-- A schedule is valid for `n` lines when every index below `n` is given to exactly
one thread, exactly once. -/
def ValidSched (n : Nat) (sched : List (List Nat)) : Prop :=
  sched.flatten.Perm (List.range n)

/-- The function `count_words` run by a single thread. -/
def count_words (lines : List Str) : WordCountMap :=
  count_words_sched lines [List.range lines.length]

/-- The line break. -/
def NL : Char := Char.ofNat 10

/-- The function `serialize_lines` (lines 54-60): every line followed by a line break. -/
def serialize_lines : List Str → Str
  | [] => []
  | line :: rest => line ++ NL :: serialize_lines rest

/-- The loop `while (getline(iss, line)) lines.push_back(line)`: `cur` is the line
being extracted.  At the end of the stream `getline` succeeds only when it has
extracted at least one character. -/
def getline_loop : Str → Str → List Str
  | [], cur => if cur = [] then [] else [cur]
  | c :: cs, cur => if c = NL then cur :: getline_loop cs [] else getline_loop cs (cur ++ [c])

/-- The function `split_lines` (lines 62-70). -/
def split_lines (str : Str) : List Str := getline_loop str []

/-- Line 100, `base = total_lines / size`, for a `total_lines` `N` that is not negative. -/
def base (N P : Nat) : Nat := N / P

/-- Line 101, `extra = total_lines % size`, for a `total_lines` `N` that is not negative. -/
def extra (N P : Nat) : Nat := N % P

/-- Lines 102 and 107, `start = rank * base + min(rank, extra)`, for a `total_lines` `N`
that is not negative. -/
def part_start (N P i : Nat) : Nat := i * base N P + min i (extra N P)

/-- Lines 103 and 108, `count = base + (rank < extra ? 1 : 0)`, for a `total_lines` `N`
that is not negative. -/
def part_count (N P i : Nat) : Nat := base N P + (if i < extra N P then 1 else 0)

/-- The conversion of a size to `int` (line 97, `int total_lines = all_lines.size()`,
and lines 110 and 157, `int len = chunk.length()`): the value modulo `2^32`, read in
two's complement. -/
def to_int (n : Nat) : Int := ((n : Int) + 2147483648) % 4294967296 - 2147483648

/-- Line 97: `int total_lines = all_lines.size()`. -/
def total_lines (all_lines : List Str) : Int := to_int all_lines.length

/-- Line 100 on `int` values: the quotient is truncated towards zero. -/
def int_base (total size : Int) : Int := Int.tdiv total size

/-- Line 101 on `int` values: the remainder has the sign of `total`. -/
def int_extra (total size : Int) : Int := Int.tmod total size

/-- Lines 102 and 107 on `int` values. -/
def int_start (total size rank : Int) : Int :=
  wrap_int (wrap_int (rank * int_base total size) + min rank (int_extra total size))

/-- Lines 103 and 108 on `int` values. -/
def int_count (total size rank : Int) : Int :=
  wrap_int (int_base total size + (if rank < int_extra total size then 1 else 0))

/-- The slice `vector<string>(all_lines.begin() + s, all_lines.begin() + s + c)`
(lines 109 and 114) for offsets inside the vector; an offset below zero is outside
the vector and is read as zero. -/
def slice (all_lines : List Str) (s c : Int) : List Str :=
  (all_lines.drop s.toNat).take c.toNat

/-- The block of lines of participant `i` among `P` (lines 97-114): the slice the
coordinator takes with the `start` and `count` it computes from `total_lines`. -/
def block (P : Nat) (all_lines : List Str) (i : Nat) : List Str :=
  slice all_lines (int_start (total_lines all_lines) P i) (int_count (total_lines all_lines) P i)

/-- The conversion of a zero-terminated `char*` to a `std::string`: the bytes
before the first zero byte. -/
def c_string (buffer : Str) : Str := buffer.takeWhile (fun c => c != NUL)

/-- A payload sent with its length and received as the source does it, at lines
116-121 and at lines 131-136: `len` bytes are received into a buffer of `len + 1`
bytes, `buffer[len] = 0`, and the buffer is converted to a string as a C string. -/
def received (payload : Str) : Str :=
  c_string (payload.take payload.length ++ [NUL])

/-- The `local_lines` of the participant `rank` (lines 105-124). -/
def local_lines (P : Nat) (all_lines : List Str) (rank : Nat) : List Str :=
  if rank = 0 then block P all_lines 0
  else split_lines (received (serialize_lines (block P all_lines rank)))

/-- The decimal digit `d`. -/
def digit_char (d : Nat) : Char := Char.ofNat (48 + d)

/-- The decimal digits of `n`, most significant first, in front of `acc`. -/
def dec_digits_aux : Nat → Nat → Str → Str
  | 0, _, acc => acc
  | fuel + 1, n, acc =>
    if n < 10 then digit_char n :: acc
    else dec_digits_aux fuel (n / 10) (digit_char (n % 10) :: acc)

/-- The decimal representation of a natural number. -/
def dec_digits (n : Nat) : Str := dec_digits_aux (n + 1) n []

/-- The text `oss << k` writes for an `int`. -/
def print_int (k : Int) : Str :=
  if k < 0 then Char.ofNat 45 :: dec_digits (-k).toNat else dec_digits k.toNat

/-- The encoding of a table (lines 152-156): `word`, a space, the count, a line
break, for every entry in iteration order. -/
def encode_table : WordCountMap → Str
  | [] => []
  | pair :: rest => pair.1 ++ Char.ofNat 32 :: (print_int pair.2 ++ NL :: encode_table rest)

/-- The smallest `int`. -/
def INT_MIN : Int := -2147483648

/-- The largest `int`. -/
def INT_MAX : Int := 2147483647

/-- The decimal digits. -/
def isdigit (c : Char) : Bool := 48 ≤ c.toNat && c.toNat ≤ 57

/-- The value of a run of decimal digits. -/
def digits_value (ds : Str) : Nat := ds.foldl (fun v c => 10 * v + (c.toNat - 48)) 0

/-- The extraction `iss >> word`: white space is skipped, then the characters up
to the next white space are extracted; it fails at the end of the stream. -/
def read_word (s : Str) : Option (Str × Str) :=
  match s.dropWhile isspace with
  | [] => none
  | c :: cs => some ((c :: cs).takeWhile (fun x => !isspace x), (c :: cs).dropWhile (fun x => !isspace x))

/-- The extraction `iss >> count` for an `int`: white space is skipped, an optional
sign and the decimal digits after it are extracted; it fails when there is no
digit or when the value is not an `int`. -/
def read_int (s : Str) : Option (Int × Str) :=
  let r := s.dropWhile isspace
  let signed : Bool × Str :=
    match r with
    | [] => (false, [])
    | c :: cs => if c = Char.ofNat 45 then (true, cs) else if c = Char.ofNat 43 then (false, cs) else (false, c :: cs)
  let ds := signed.2.takeWhile isdigit
  if ds = [] then none
  else
    let v : Int := if signed.1 then -(digits_value ds : Int) else (digits_value ds : Int)
    if INT_MIN ≤ v ∧ v ≤ INT_MAX then some (v, signed.2.dropWhile isdigit) else none

/-- The loop `while (iss >> word >> count) global_map[word] += count` (lines
139-141).  Every round extracts at least one character, so `fuel` rounds are
enough for a stream of fewer than `fuel` characters. -/
def reduce_loop : Nat → Str → WordCountMap → WordCountMap
  | 0, _, global_map => global_map
  | fuel + 1, s, global_map =>
    match read_word s with
    | none => global_map
    | some (word, r) =>
      match read_int r with
      | none => global_map
      | some (count, r') => reduce_loop fuel r' (add_to global_map word count)

/-- The body of the reduction loop (lines 131-142) for one participant whose
payload is `payload`. -/
def reduce_payload (global_map : WordCountMap) (payload : Str) : WordCountMap :=
  reduce_loop ((received payload).length + 1) (received payload) global_map

/-- The `local_map` of the participant `rank` (line 126); `sched rank` is the
schedule of its OpenMP region. -/
def local_map (P : Nat) (all_lines : List Str) (sched : Nat → List (List Nat)) (rank : Nat) :
    WordCountMap :=
  count_words_sched (local_lines P all_lines rank) (sched rank)

/-- The `global_map` of the coordinator after the reduction (lines 128-143): seeded
with its own `local_map`, then the payload of every other participant, in
increasing order of rank. -/
def global_map (P : Nat) (all_lines : List Str) (sched : Nat → List (List Nat)) : WordCountMap :=
  (List.range' 1 (P - 1)).foldl
    (fun g i => reduce_payload g (encode_table (local_map P all_lines sched i)))
    (local_map P all_lines sched 0)

/-- The schedule in which one thread runs the whole work-sharing loop. -/
def one_thread (P : Nat) (all_lines : List Str) (rank : Nat) : List (List Nat) :=
  [List.range (local_lines P all_lines rank).length]

/-- The tokens of all lines, in order. -/
def all_tokens (lines : List Str) : List Str := lines.flatMap tokenize

/-- The number of occurrences of `w` among the tokens of `lines`. -/
def occurrences (w : Str) (lines : List Str) : Nat :=
  (all_tokens lines).countP (fun t => decide (t = w))

/-- The sum of the counts of a table. -/
def total_count (m : WordCountMap) : Int := (m.map Prod.snd).sum

/-- The counts of the pairs of `b` whose word is `w`, in the order of `b`. -/
def vals (b : WordCountMap) (w : Str) : List Int :=
  match b with
  | [] => []
  | (w', c) :: rest => if w' = w then c :: vals rest w else vals rest w

/-- What `m[w] += k` stores under `w` when `x` is what `m` held there. -/
def bump (x : Option Int) (k : Int) : Option Int :=
  match x with
  | none => some (0 + k)
  | some c => some (wrap_int (c + k))

/-- What a table holds under a word counted `n` times with `int` increments: no
entry when `n` is zero, and `n` as an `int` otherwise. -/
def spec_find (n : Nat) : Option Int := if n = 0 then none else some (wrap_int n)

/-- The tokens of the lines at the indices `shard`, in the order of the indices. -/
def shard_tokens (lines : List Str) (shard : List Nat) : List Str :=
  shard.flatMap (fun i => tokenize (lines.getD i []))

/-- The loop `private_map[word]++` over a sequence of tokens. -/
def count_tokens (m : WordCountMap) (toks : List Str) : WordCountMap :=
  toks.foldl (fun m word => add_to m word 1) m

/-- The count a merge stores under a word, from the counts of the two tables. -/
def opt_add : Option Int → Option Int → Option Int
  | none, y => y
  | some x, none => some x
  | some x, some y => some (wrap_int (x + y))

/-- A key the partial-table format can carry: not empty, without white space. -/
def is_word (w : Str) : Prop := w ≠ [] ∧ ∀ c ∈ w, isspace c = false

instance (w : Str) : Decidable (is_word w) := by unfold is_word; infer_instance

/-- A count that is a value of the type `int`. -/
def in_int_range (k : Int) : Prop := INT_MIN ≤ k ∧ k ≤ INT_MAX

instance (k : Int) : Decidable (in_int_range k) := by unfold in_int_range; infer_instance

/-- Lines the transfer of a block keeps as they are: no zero byte, no line break. -/
def clean (lines : List Str) : Prop := ∀ l ∈ lines, NUL ∉ l ∧ NL ∉ l

instance (lines : List Str) : Decidable (clean lines) := by unfold clean; infer_instance

/-- The lines of the scenario of the specification. -/
def scenario_lines : List Str :=
  ["The cat.".toList, "the CAT sat.".toList, "A cat sat on a mat.".toList]

/-- The table of the scenario of the specification. -/
def scenario_table : WordCountMap :=
  [("the".toList, 2), ("cat".toList, 3), ("sat".toList, 2), ("a".toList, 2), ("on".toList, 1),
    ("mat".toList, 1)]

/-- Two input lines, the second with a zero byte inside a word. -/
def zero_byte_lines : List Str := ["a".toList, ['b', NUL, 'c']]

/-- Two input lines, the second with a zero byte followed by more words. -/
def zero_byte_tail_lines : List Str := ["a".toList, ['b', NUL, 'c', ' ', 'd', ' ', 'e']]

/-- The length the coordinator sends before a line block (lines 109-111). -/
def sent_len (lines : List Str) : Int := to_int (serialize_lines lines).length

/-- Four input lines, the third with a zero byte inside. -/
def zero_byte_block_lines : List Str :=
  ["a".toList, "b".toList, ['c', NUL, 'd'], "e".toList]

/-- The white-space separated words of a line, as the specification words them: the
non-empty pieces between the white-space characters. -/
def ws_words (line : Str) : List Str :=
  (line.splitOnP isspace).filter (fun w => !w.isEmpty)

/-- The count a token stands for when the token as a whole is an integer: the
extraction of an `int` reads it to its end. -/
def int_token (tok : Str) : Option Int :=
  match read_int tok with
  | some (count, []) => some count
  | _ => none

/-- The reduction of a payload as the specification words it: the white-space
separated tokens are taken in pairs, `global[word] += count` is applied while the
second token of the pair is an integer, and the first pair that is not well formed
ends the reduction. -/
def reduce_tokens : List Str → WordCountMap → WordCountMap
  | word :: tok :: rest, global_map =>
    match int_token tok with
    | some count => reduce_tokens rest (add_to global_map word count)
    | none => global_map
  | _, global_map => global_map

/-- A token the extraction of an `int` reads to its end or not at all. -/
def whole_or_none (tok : Str) : Bool :=
  match read_int tok with
  | some (_, rest) => rest.isEmpty
  | none => true

/-- The tokens in a count position, up to the first pair that is not well formed, are
integers as a whole or do not start with an integer.  Nothing is asked of the tokens
in a word position. -/
def counts_delimited : List Str → Bool
  | _ :: tok :: rest =>
    whole_or_none tok &&
      (match int_token tok with
        | some _ => counts_delimited rest
        | none => true)
  | _ => true

/-- The sign an `int` can be written with: none, `+` or `-`. -/
def is_sign (sign : Str) : Prop :=
  sign = [] ∨ sign = [Char.ofNat 43] ∨ sign = [Char.ofNat 45]

instance (sign : Str) : Decidable (is_sign sign) := by unfold is_sign; infer_instance

/-- The part of the extraction of an `int` that follows the optional sign: the
decimal digits at the front of `r1`, negated when `neg` is set. -/
def read_digits (neg : Bool) (r1 : Str) : Option (Int × Str) :=
  if r1.takeWhile isdigit = [] then none
  else
    let v : Int :=
      if neg then -(digits_value (r1.takeWhile isdigit) : Int)
      else (digits_value (r1.takeWhile isdigit) : Int)
    if INT_MIN ≤ v ∧ v ≤ INT_MAX then some (v, r1.dropWhile isdigit) else none

/-! # Lemmas -/

/-! ## Tables -/

theorem wrap_int_wrap_add (a b : Int) : wrap_int (wrap_int a + b) = wrap_int (a + b) := by
  unfold wrap_int
  omega

theorem wrap_int_add_wrap (a b : Int) : wrap_int (a + wrap_int b) = wrap_int (a + b) := by
  unfold wrap_int
  omega

theorem wrap_int_of_range (k : Int) (h1 : INT_MIN ≤ k) (h2 : k ≤ INT_MAX) : wrap_int k = k := by
  unfold INT_MIN at h1
  unfold INT_MAX at h2
  unfold wrap_int
  omega

theorem wrap_int_range (k : Int) : INT_MIN ≤ wrap_int k ∧ wrap_int k ≤ INT_MAX := by
  unfold INT_MIN INT_MAX wrap_int
  omega

theorem find_add_to (m : WordCountMap) (w : Str) (k : Int) (w' : Str) :
    find (add_to m w k) w' = if w = w' then bump (find m w) k else find m w' := by
  induction m with
  | nil => simp [add_to, find, bump]
  | cons p rest ih =>
    obtain ⟨w0, c⟩ := p
    by_cases h0 : w0 = w
    · subst h0
      by_cases h1 : w0 = w' <;> simp [add_to, find, bump, h1]
    · by_cases h1 : w = w'
      · subst h1
        simp [add_to, find, h0, ih]
      · have h3 : ¬ w' = w := fun h => h1 h.symm
        by_cases h2 : w0 = w'
        · subst h2
          simp [add_to, find, h3, h1]
        · simp [add_to, find, h0, h1, h2, ih]

theorem find_eq_none_iff (m : WordCountMap) (w : Str) :
    find m w = none ↔ w ∉ m.map Prod.fst := by
  induction m with
  | nil => simp [find]
  | cons p rest ih =>
    obtain ⟨w0, c⟩ := p
    by_cases h0 : w0 = w
    · simp [find, h0]
    · have h1 : ¬ w = w0 := fun h => h0 h.symm
      simp [find, h0, h1, ih]

theorem find_mem (m : WordCountMap) (w : Str) (c : Int) (h : find m w = some c) :
    (w, c) ∈ m := by
  induction m with
  | nil => simp [find] at h
  | cons p rest ih =>
    obtain ⟨w0, c0⟩ := p
    by_cases h0 : w0 = w
    · simp [find, h0] at h
      simp [h0, h]
    · simp [find, h0] at h
      exact List.mem_cons_of_mem _ (ih h)

theorem find_of_mem (m : WordCountMap) (hm : WF m) (w : Str) (c : Int) (h : (w, c) ∈ m) :
    find m w = some c := by
  induction m with
  | nil => simp at h
  | cons p rest ih =>
    obtain ⟨w0, c0⟩ := p
    simp only [WF, List.map_cons, List.nodup_cons] at hm
    rcases List.mem_cons.1 h with h1 | h1
    · cases h1
      simp [find]
    · have hne : w0 ≠ w := by
        intro e
        subst e
        exact hm.1 (List.mem_map.2 ⟨(w0, c), h1, rfl⟩)
      simp only [find, hne, if_false]
      exact ih hm.2 h1

theorem keys_add_to (m : WordCountMap) (w : Str) (k : Int) :
    (add_to m w k).map Prod.fst =
      if w ∈ m.map Prod.fst then m.map Prod.fst else m.map Prod.fst ++ [w] := by
  induction m with
  | nil => simp [add_to]
  | cons p rest ih =>
    obtain ⟨w0, c⟩ := p
    by_cases h0 : w0 = w
    · simp [add_to, h0]
    · have h1 : ¬ w = w0 := fun h => h0 h.symm
      by_cases h2 : w ∈ rest.map Prod.fst
      · simp only [add_to, h0, if_false, List.map_cons, ih, h2, if_true, List.mem_cons, or_true]
      · simp only [add_to, h0, if_false, List.map_cons, ih, h2, List.mem_cons, h1, or_self,
          List.cons_append]

theorem WF_add_to (m : WordCountMap) (w : Str) (k : Int) (hm : WF m) : WF (add_to m w k) := by
  unfold WF at *
  rw [keys_add_to]
  split_ifs with h
  · exact hm
  · exact List.Nodup.append hm (List.nodup_singleton w) (by simpa using h)

theorem WF_merge_maps (b a : WordCountMap) (ha : WF a) : WF (merge_maps a b) := by
  unfold merge_maps
  induction b generalizing a with
  | nil => simpa using ha
  | cons p rest ih => exact ih _ (WF_add_to a p.1 p.2 ha)

theorem vals_eq_nil (b : WordCountMap) (w : Str) (h : w ∉ b.map Prod.fst) : vals b w = [] := by
  induction b with
  | nil => rfl
  | cons p rest ih =>
    obtain ⟨w0, c⟩ := p
    simp only [List.map_cons, List.mem_cons, not_or] at h
    have h0 : ¬ w0 = w := fun e => h.1 e.symm
    simp [vals, h0, ih h.2]

theorem find_merge_maps (b a : WordCountMap) (w : Str) :
    find (merge_maps a b) w = (vals b w).foldl bump (find a w) := by
  unfold merge_maps
  induction b generalizing a with
  | nil => rfl
  | cons p rest ih =>
    obtain ⟨w0, c⟩ := p
    rw [List.foldl_cons, ih, find_add_to]
    by_cases h0 : w0 = w
    · subst h0
      simp [vals]
    · have h1 : ¬ w = w0 := fun h => h0 h.symm
      simp [vals, h0]

theorem vals_of_WF (b : WordCountMap) (hb : WF b) (w : Str) :
    vals b w = (find b w).toList := by
  induction b with
  | nil => rfl
  | cons p rest ih =>
    obtain ⟨w0, c⟩ := p
    simp only [WF, List.map_cons, List.nodup_cons] at hb
    by_cases h0 : w0 = w
    · subst h0
      simp [vals, find, vals_eq_nil rest w0 hb.1]
    · simp [vals, find, h0, ih hb.2]

theorem vals_perm (b b' : WordCountMap) (h : b.Perm b') (w : Str) :
    (vals b w).Perm (vals b' w) := by
  induction h with
  | nil => exact List.Perm.refl _
  | cons x _ ih =>
    obtain ⟨w0, c⟩ := x
    by_cases h0 : w0 = w
    · simpa [vals, h0] using ih
    · simpa [vals, h0] using ih
  | swap x y l =>
    obtain ⟨w0, c⟩ := x
    obtain ⟨w1, d⟩ := y
    by_cases h0 : w0 = w <;> by_cases h1 : w1 = w <;> simp [vals, h0, h1]
    exact List.Perm.swap _ _ _
  | trans _ _ ih1 ih2 => exact ih1.trans ih2

theorem bump_right_comm (x : Option Int) (j k : Int) :
    bump (bump x j) k = bump (bump x k) j := by
  cases x with
  | none => simp [bump, add_comm]
  | some c =>
    simp only [bump, wrap_int_wrap_add, Option.some.injEq]
    congr 1
    ring

theorem foldl_bump_perm (l l' : List Int) (h : l.Perm l') :
    ∀ x, l.foldl bump x = l'.foldl bump x := by
  induction h with
  | nil => exact fun _ => rfl
  | cons a _ ih => exact fun x => ih (bump x a)
  | swap a b l =>
    intro x
    show l.foldl bump (bump (bump x b) a) = l.foldl bump (bump (bump x a) b)
    rw [bump_right_comm]
  | trans _ _ ih1 ih2 => exact fun x => (ih1 x).trans (ih2 x)

/-- The table a merge produces, for a merged table with unique keys. -/
theorem find_merge_maps_opt (a b : WordCountMap) (hb : WF b) (w : Str) :
    find (merge_maps a b) w = opt_add (find a w) (find b w) := by
  rw [find_merge_maps, vals_of_WF b hb]
  cases find a w <;> cases find b w <;> simp [opt_add, bump]

/-! ## Counting -/

theorem count_shard_eq (lines : List Str) (shard : List Nat) :
    count_shard lines shard = count_tokens [] (shard_tokens lines shard) := by
  have key : ∀ (m : WordCountMap),
      shard.foldl (fun m i => count_line m (lines.getD i [])) m
        = count_tokens m (shard_tokens lines shard) := by
    induction shard with
    | nil => intro m; rfl
    | cons i rest ih =>
      intro m
      rw [List.foldl_cons, ih]
      simp only [shard_tokens, List.flatMap_cons, count_tokens, List.foldl_append, count_line]
  exact key []

theorem wrap_int_one : wrap_int 1 = 1 := by decide

theorem bump_spec_find (n : Nat) : bump (spec_find n) 1 = spec_find (n + 1) := by
  unfold spec_find
  by_cases h : n = 0
  · subst h
    simp [bump, wrap_int_one]
  · simp only [h, if_false, bump, Nat.succ_ne_zero, wrap_int_wrap_add]
    push_cast
    rfl

theorem find_count_tokens (toks : List Str) (m : WordCountMap) (w : Str) (n : Nat)
    (hm : find m w = spec_find n) :
    find (count_tokens m toks) w = spec_find (n + toks.countP (fun t => decide (t = w))) := by
  unfold count_tokens
  induction toks generalizing m n with
  | nil => simpa using hm
  | cons t rest ih =>
    rw [List.foldl_cons]
    by_cases h0 : t = w
    · subst h0
      have h1 : find (add_to m t 1) t = spec_find (n + 1) := by
        rw [find_add_to, if_pos rfl, hm, bump_spec_find]
      rw [ih _ _ h1]
      simp [List.countP_cons]
      congr 1
      omega
    · have h1 : find (add_to m t 1) w = spec_find n := by
        rw [find_add_to, if_neg h0, hm]
      rw [ih _ _ h1]
      simp [List.countP_cons, h0]

theorem WF_count_tokens (toks : List Str) (m : WordCountMap) (hm : WF m) :
    WF (count_tokens m toks) := by
  unfold count_tokens
  induction toks generalizing m with
  | nil => simpa using hm
  | cons t rest ih => exact ih _ (WF_add_to m t 1 hm)

theorem WF_nil : WF [] := by simp [WF]

theorem WF_count_shard (lines : List Str) (shard : List Nat) : WF (count_shard lines shard) := by
  rw [count_shard_eq]
  exact WF_count_tokens _ _ WF_nil

theorem find_count_shard (lines : List Str) (shard : List Nat) (w : Str) :
    find (count_shard lines shard) w
      = spec_find ((shard_tokens lines shard).countP (fun t => decide (t = w))) := by
  rw [count_shard_eq]
  have h := find_count_tokens (shard_tokens lines shard) [] w 0 (by simp [find, spec_find])
  simpa using h

theorem spec_find_merge (a b : WordCountMap) (hb : WF b) (n k : Nat) (w : Str)
    (ha : find a w = spec_find n) (hk : find b w = spec_find k) :
    find (merge_maps a b) w = spec_find (n + k) := by
  rw [find_merge_maps_opt a b hb, ha, hk]
  unfold spec_find
  by_cases h0 : n = 0
  · subst h0
    by_cases h1 : k = 0 <;> simp [h1, opt_add]
  · by_cases h1 : k = 0
    · subst h1
      simp [h0, opt_add]
    · have h2 : n + k ≠ 0 := by omega
      simp only [h0, h1, h2, if_false, opt_add, wrap_int_wrap_add, wrap_int_add_wrap]
      push_cast
      rfl

theorem WF_sched_fold (lines : List Str) (sched : List (List Nat)) (acc : WordCountMap)
    (hacc : WF acc) :
    WF (sched.foldl (fun local_map shard => merge_maps local_map (count_shard lines shard)) acc) := by
  induction sched generalizing acc with
  | nil => simpa using hacc
  | cons s rest ih => exact ih _ (WF_merge_maps _ _ hacc)

theorem WF_count_words_sched (lines : List Str) (sched : List (List Nat)) :
    WF (count_words_sched lines sched) :=
  WF_sched_fold lines sched [] WF_nil

theorem find_sched_fold (lines : List Str) (sched : List (List Nat)) (acc : WordCountMap)
    (toks0 : List Str) (w : Str) (hacc : find acc w = spec_find (toks0.countP (fun t => decide (t = w)))) :
    find (sched.foldl (fun local_map shard => merge_maps local_map (count_shard lines shard)) acc) w
      = spec_find ((toks0 ++ shard_tokens lines sched.flatten).countP (fun t => decide (t = w))) := by
  induction sched generalizing acc toks0 with
  | nil => simpa [shard_tokens] using hacc
  | cons s rest ih =>
    have step := spec_find_merge acc (count_shard lines s) (WF_count_shard lines s) _ _ w hacc
      (find_count_shard lines s w)
    have h := ih (merge_maps acc (count_shard lines s)) (toks0 ++ shard_tokens lines s)
      (by simpa [List.countP_append] using step)
    simpa [shard_tokens, List.append_assoc] using h

theorem map_getD_range (lines : List Str) :
    (List.range lines.length).map (fun i => lines.getD i []) = lines := by
  apply List.ext_getElem
  · simp
  · intro i h1 h2
    simp [List.getD_eq_getElem?_getD, List.getElem?_eq_getElem h2]

theorem shard_tokens_range (lines : List Str) :
    shard_tokens lines (List.range lines.length) = all_tokens lines := by
  unfold shard_tokens all_tokens
  have h := map_getD_range lines
  conv_rhs => rw [← h]
  simp [List.flatMap, List.map_map, Function.comp_def]

theorem shard_tokens_perm (lines : List Str) (sched : List (List Nat))
    (h : ValidSched lines.length sched) :
    (shard_tokens lines sched.flatten).Perm (all_tokens lines) := by
  rw [← shard_tokens_range]
  exact List.Perm.flatMap_right _ h

/-- The table `count_words` returns, whatever the schedule. -/
theorem find_count_words_sched (lines : List Str) (sched : List (List Nat))
    (h : ValidSched lines.length sched) (w : Str) :
    find (count_words_sched lines sched) w = spec_find (occurrences w lines) := by
  have h1 := find_sched_fold lines sched [] [] w (by simp [find, spec_find])
  rw [List.nil_append] at h1
  rw [(shard_tokens_perm lines sched h).countP_eq] at h1
  exact h1

theorem validSched_one_thread (n : Nat) : ValidSched n [List.range n] := by
  simp [ValidSched]

/-! ## The partitioner -/

theorem part_start_zero (N P : Nat) : part_start N P 0 = 0 := by
  simp [part_start]

theorem part_start_succ (N P i : Nat) :
    part_start N P (i + 1) = part_start N P i + part_count N P i := by
  unfold part_start part_count
  rw [Nat.succ_mul]
  split_ifs with h <;> omega

theorem part_start_total (N P : Nat) (hP : 1 ≤ P) : part_start N P P = N := by
  unfold part_start base extra
  have h1 : N % P < P := Nat.mod_lt N (by omega)
  have h2 := Nat.div_add_mod N P
  rw [Nat.min_eq_right (Nat.le_of_lt h1)]
  omega

theorem part_start_mono (N P : Nat) {i j : Nat} (h : i ≤ j) : part_start N P i ≤ part_start N P j := by
  induction h with
  | refl => exact Nat.le_refl _
  | step _ ih => rw [part_start_succ]; omega

theorem part_count_sum (N P k : Nat) :
    ((List.range k).map (part_count N P)).sum = part_start N P k := by
  induction k with
  | zero => simp [part_start_zero]
  | succ k ih => rw [List.range_succ, List.map_append, List.sum_append, ih, part_start_succ]; simp

theorem part_owner_exists (N P j k : Nat) (h : j < part_start N P k) :
    ∃ i, i < k ∧ part_start N P i ≤ j ∧ j < part_start N P i + part_count N P i := by
  induction k with
  | zero => simp [part_start_zero] at h
  | succ k ih =>
    by_cases hk : j < part_start N P k
    · obtain ⟨i, hi, h1, h2⟩ := ih hk
      exact ⟨i, by omega, h1, h2⟩
    · rw [part_start_succ] at h
      exact ⟨k, by omega, by omega, h⟩

theorem part_owner_unique (N P j i i' : Nat)
    (h1 : part_start N P i ≤ j) (h2 : j < part_start N P i + part_count N P i)
    (h1' : part_start N P i' ≤ j) (h2' : j < part_start N P i' + part_count N P i') : i = i' := by
  rw [← part_start_succ] at h2 h2'
  by_contra hne
  rcases Nat.lt_or_gt_of_ne hne with hlt | hgt
  · have := part_start_mono N P (show i + 1 ≤ i' by omega)
    omega
  · have := part_start_mono N P (show i' + 1 ≤ i by omega)
    omega

theorem part_small (N P : Nat) (h : N < P) : base N P = 0 ∧ extra N P = N :=
  ⟨Nat.div_eq_of_lt h, Nat.mod_eq_of_lt h⟩

/-! ## The partitioner on `int` values -/

theorem to_int_of_le (n : Nat) (h : (n : Int) ≤ INT_MAX) : to_int n = (n : Int) := by
  unfold INT_MAX at h
  unfold to_int
  omega

theorem to_int_range (n : Nat) : INT_MIN ≤ to_int n ∧ to_int n ≤ INT_MAX ∧ to_int n ≤ (n : Int) := by
  unfold INT_MIN INT_MAX to_int
  omega

theorem total_lines_of_le (all_lines : List Str) (h : (all_lines.length : Int) ≤ INT_MAX) :
    total_lines all_lines = (all_lines.length : Int) :=
  to_int_of_le _ h

theorem int_base_natCast (n P : Nat) : int_base n P = ((base n P : Nat) : Int) := rfl

theorem int_extra_natCast (n P : Nat) : int_extra n P = ((extra n P : Nat) : Int) := rfl

theorem part_start_le (N P i : Nat) (hP : 1 ≤ P) (hi : i ≤ P) : part_start N P i ≤ N := by
  have h := part_start_mono N P hi
  rw [part_start_total N P hP] at h
  exact h

theorem part_count_le (N P i : Nat) (hP : 1 ≤ P) : part_count N P i ≤ N := by
  unfold part_count base extra
  have h1 := Nat.div_add_mod N P
  have h2 : N / P ≤ P * (N / P) := Nat.le_mul_of_pos_left _ (by omega)
  split_ifs <;> omega

/-- On a line count that is an `int`, lines 100-103 compute in `int` what `part_start`
and `part_count` compute: no operation leaves the range of `int`. -/
theorem int_partition_natCast (n P i : Nat) (hn : (n : Int) ≤ INT_MAX) (hP : 1 ≤ P)
    (hi : i ≤ P) :
    wrap_int ((i : Int) * int_base n P) = (i : Int) * int_base n P ∧
    int_start n P i = ((part_start n P i : Nat) : Int) ∧
    int_count n P i = ((part_count n P i : Nat) : Int) := by
  have hs := part_start_le n P i hP hi
  have hc := part_count_le n P i hP
  have hprod : i * base n P ≤ part_start n P i := by
    unfold part_start
    omega
  have hmin : min (i : Int) ((extra n P : Nat) : Int) = ((min i (extra n P) : Nat) : Int) := by
    omega
  have e1 : (i : Int) * int_base n P = ((i * base n P : Nat) : Int) := by
    rw [int_base_natCast]
    push_cast
    rfl
  have w1 : wrap_int ((i : Int) * int_base n P) = (i : Int) * int_base n P := by
    rw [e1]
    apply wrap_int_of_range <;> unfold INT_MIN INT_MAX at * <;> omega
  refine ⟨w1, ?_, ?_⟩
  · unfold int_start
    rw [w1, e1, int_extra_natCast, hmin]
    have e2 : ((i * base n P : Nat) : Int) + ((min i (extra n P) : Nat) : Int)
        = ((part_start n P i : Nat) : Int) := by
      unfold part_start
      push_cast
      rfl
    rw [e2]
    apply wrap_int_of_range <;> unfold INT_MIN INT_MAX at * <;> omega
  · unfold int_count
    rw [int_base_natCast, int_extra_natCast]
    have e3 : ((base n P : Nat) : Int) + (if (i : Int) < ((extra n P : Nat) : Int) then 1 else 0)
        = ((part_count n P i : Nat) : Int) := by
      unfold part_count
      split_ifs <;> first | (push_cast; rfl) | omega
    rw [e3]
    apply wrap_int_of_range <;> unfold INT_MIN INT_MAX at * <;> omega

theorem block_eq (P : Nat) (all_lines : List Str) (i : Nat)
    (hn : (all_lines.length : Int) ≤ INT_MAX) (hP : 1 ≤ P) (hi : i ≤ P) :
    block P all_lines i
      = (all_lines.drop (part_start all_lines.length P i)).take (part_count all_lines.length P i) := by
  obtain ⟨_, h1, h2⟩ := int_partition_natCast all_lines.length P i hn hP hi
  unfold block slice
  rw [total_lines_of_le all_lines hn, h1, h2]
  rfl

theorem int_base_of_small (n P : Nat) (h : n < P) :
    int_base (to_int n) P = 0 ∧ int_extra (to_int n) P = to_int n := by
  have habs : (to_int n).natAbs < P := by
    unfold to_int
    omega
  have hb : Int.tdiv (to_int n) P = 0 := by
    apply Int.natAbs_eq_zero.1
    rw [Int.natAbs_tdiv]
    exact Nat.div_eq_of_lt (by simpa using habs)
  refine ⟨hb, ?_⟩
  unfold int_extra
  rw [Int.tmod_def, hb]
  simp

theorem block_of_small (P : Nat) (all_lines : List Str) (i : Nat)
    (h1 : all_lines.length < P) (h2 : all_lines.length ≤ i) : block P all_lines i = [] := by
  obtain ⟨hb, he⟩ := int_base_of_small all_lines.length P h1
  obtain ⟨_, _, h3⟩ := to_int_range all_lines.length
  have hc : int_count (total_lines all_lines) P i = 0 := by
    unfold int_count total_lines
    rw [hb, he, if_neg (by omega)]
    decide
  unfold block slice
  rw [hc]
  simp

theorem block_nil (P i : Nat) : block P [] i = [] := by
  simp [block, slice]

/-! ## Empty blocks -/

theorem tokenize_nil : tokenize [] = [] := by
  simp [tokenize, stream_words]

theorem count_shard_nil (shard : List Nat) : count_shard [] shard = [] := by
  unfold count_shard
  induction shard with
  | nil => rfl
  | cons i rest ih => simp [count_line, tokenize_nil]

theorem count_words_sched_nil (sched : List (List Nat)) : count_words_sched [] sched = [] := by
  unfold count_words_sched
  induction sched with
  | nil => rfl
  | cons s rest ih => simp [count_shard_nil, merge_maps]

theorem received_nil : received [] = [] := by
  simp [received, c_string, NUL]

theorem reduce_payload_nil (g : WordCountMap) : reduce_payload g [] = g := by
  simp [reduce_payload, received_nil, reduce_loop, read_word]

theorem local_lines_of_block_nil (P : Nat) (all_lines : List Str) (i : Nat)
    (hb : block P all_lines i = []) : local_lines P all_lines i = [] := by
  unfold local_lines
  split_ifs with h0
  · subst h0; exact hb
  · rw [hb]
    simp [serialize_lines, received_nil, split_lines, getline_loop]

/-! ## Merging is commutative and associative -/

theorem opt_add_comm (x y : Option Int) : opt_add x y = opt_add y x := by
  cases x <;> cases y <;> simp [opt_add, add_comm]

theorem opt_add_assoc (x y z : Option Int) :
    opt_add (opt_add x y) z = opt_add x (opt_add y z) := by
  cases x <;> cases y <;> cases z <;>
    simp [opt_add, wrap_int_wrap_add, wrap_int_add_wrap, add_assoc]

theorem merge_maps_comm (a b : WordCountMap) (ha : WF a) (hb : WF b) :
    TableEq (merge_maps a b) (merge_maps b a) := by
  intro w
  rw [find_merge_maps_opt a b hb, find_merge_maps_opt b a ha, opt_add_comm]

theorem merge_maps_assoc (a b c : WordCountMap) (hb : WF b) (hc : WF c) :
    TableEq (merge_maps (merge_maps a b) c) (merge_maps a (merge_maps b c)) := by
  intro w
  rw [find_merge_maps_opt _ c hc, find_merge_maps_opt a b hb,
    find_merge_maps_opt a _ (WF_merge_maps c b hb), find_merge_maps_opt b c hc, opt_add_assoc]

theorem merge_maps_congr_left (a a' b : WordCountMap) (h : TableEq a a') :
    TableEq (merge_maps a b) (merge_maps a' b) := by
  intro w
  rw [find_merge_maps, find_merge_maps, h w]

theorem merge_maps_perm (a b b' : WordCountMap) (h : b.Perm b') :
    TableEq (merge_maps a b) (merge_maps a b') := by
  intro w
  rw [find_merge_maps, find_merge_maps]
  exact foldl_bump_perm _ _ (vals_perm b b' h w) _

theorem merge_maps_right_comm (g x y : WordCountMap) :
    TableEq (merge_maps (merge_maps g y) x) (merge_maps (merge_maps g x) y) := by
  intro w
  simp only [find_merge_maps, ← List.foldl_append]
  exact foldl_bump_perm _ _ List.perm_append_comm _

theorem foldl_merge_congr (ts : List WordCountMap) (g g' : WordCountMap) (h : TableEq g g') :
    TableEq (ts.foldl merge_maps g) (ts.foldl merge_maps g') := by
  induction ts generalizing g g' with
  | nil => exact h
  | cons t rest ih => exact ih _ _ (merge_maps_congr_left g g' t h)

theorem foldl_merge_perm (ts ts' : List WordCountMap) (h : ts.Perm ts') (g : WordCountMap) :
    TableEq (ts.foldl merge_maps g) (ts'.foldl merge_maps g) := by
  induction h generalizing g with
  | nil => exact fun _ => rfl
  | cons t _ ih => exact ih (merge_maps g t)
  | swap x y l => exact foldl_merge_congr l _ _ (merge_maps_right_comm g x y)
  | trans _ _ ih1 ih2 => exact fun w => (ih1 g w).trans (ih2 g w)

/-! ## Line blocks -/

theorem getline_loop_line (l : Str) (hl : NL ∉ l) (rest cur : Str) :
    getline_loop (l ++ NL :: rest) cur = (cur ++ l) :: getline_loop rest [] := by
  induction l generalizing cur with
  | nil => simp [getline_loop]
  | cons c cs ih =>
    have hc : c ≠ NL := fun e => hl (by simp [e])
    have hcs : NL ∉ cs := fun e => hl (List.mem_cons_of_mem _ e)
    simp [getline_loop, hc, ih hcs]

theorem split_serialize (lines : List Str) (h : ∀ l ∈ lines, NL ∉ l) :
    split_lines (serialize_lines lines) = lines := by
  unfold split_lines
  induction lines with
  | nil => simp [serialize_lines, getline_loop]
  | cons l rest ih =>
    rw [serialize_lines, getline_loop_line l (h l (List.mem_cons_self _ _)), List.nil_append,
      ih (fun x hx => h x (List.mem_cons_of_mem _ hx))]

/-! ## The partial-table format -/

theorem char_toNat_ofNat (n : Nat) (h : n < 55296) : (Char.ofNat n).toNat = n := by
  have hv : n.isValidChar := Or.inl h
  simp [Char.ofNat, hv, Char.ofNatAux, Char.toNat, UInt32.toNat]

theorem digit_char_toNat (d : Nat) (h : d < 10) : (digit_char d).toNat = 48 + d :=
  char_toNat_ofNat (48 + d) (by omega)

theorem isdigit_digit_char (d : Nat) (h : d < 10) : isdigit (digit_char d) = true := by
  simp [isdigit, digit_char_toNat d h]
  omega

theorem dec_digits_aux_spec (fuel n : Nat) (acc : Str) (h : n < fuel) :
    ∃ ds : Str, dec_digits_aux fuel n acc = ds ++ acc ∧ ds ≠ [] ∧
      (∀ c ∈ ds, isdigit c = true) ∧ digits_value ds = n := by
  induction fuel generalizing n acc with
  | zero => omega
  | succ fuel ih =>
    unfold dec_digits_aux
    by_cases h10 : n < 10
    · refine ⟨[digit_char n], by simp [h10], by simp, ?_, ?_⟩
      · intro c hc
        rw [List.mem_singleton.1 hc]
        exact isdigit_digit_char n h10
      · simp [digits_value, digit_char_toNat n h10]
    · obtain ⟨ds, h1, _, h3, h4⟩ := ih (n / 10) (digit_char (n % 10) :: acc) (by omega)
      have hm : n % 10 < 10 := Nat.mod_lt n (by omega)
      refine ⟨ds ++ [digit_char (n % 10)], by simp [h10, h1], by simp, ?_, ?_⟩
      · intro c hc
        rcases List.mem_append.1 hc with hc | hc
        · exact h3 c hc
        · rw [List.mem_singleton.1 hc]
          exact isdigit_digit_char _ hm
      · unfold digits_value at h4 ⊢
        rw [List.foldl_append, h4]
        simp [digit_char_toNat _ hm]
        omega

theorem dec_digits_spec (n : Nat) :
    dec_digits n ≠ [] ∧ (∀ c ∈ dec_digits n, isdigit c = true) ∧ digits_value (dec_digits n) = n := by
  obtain ⟨ds, h1, h2, h3, h4⟩ := dec_digits_aux_spec (n + 1) n [] (by omega)
  have : dec_digits n = ds := by simp [dec_digits, h1]
  rw [this]
  exact ⟨h2, h3, h4⟩

theorem isdigit_not_space (c : Char) (h : isdigit c = true) : isspace c = false := by
  simp [isdigit, isspace] at h ⊢
  omega

theorem isdigit_ne_sign (c : Char) (h : isdigit c = true) :
    c ≠ Char.ofNat 45 ∧ c ≠ Char.ofNat 43 := by
  constructor <;> intro e <;> subst e <;> simp [isdigit] at h

theorem dropWhile_run (p : Char → Bool) (pre : Str) (c : Char) (rest : Str)
    (hpre : ∀ x ∈ pre, p x = true) (hc : p c = false) :
    (pre ++ c :: rest).dropWhile p = c :: rest := by
  rw [List.dropWhile_append_of_pos hpre, List.dropWhile_cons_of_neg (by simp [hc])]

theorem takeWhile_run (p : Char → Bool) (pre : Str) (c : Char) (rest : Str)
    (hpre : ∀ x ∈ pre, p x = true) (hc : p c = false) :
    (pre ++ c :: rest).takeWhile p = pre := by
  rw [List.takeWhile_append_of_pos hpre, List.takeWhile_cons_of_neg (by simp [hc])]
  simp

theorem read_word_spec (pre w : Str) (c : Char) (rest : Str)
    (hpre : ∀ x ∈ pre, isspace x = true) (hw : is_word w) (hc : isspace c = true) :
    read_word (pre ++ (w ++ c :: rest)) = some (w, c :: rest) := by
  obtain ⟨hne, hns⟩ := hw
  obtain ⟨a, as, rfl⟩ := List.exists_cons_of_ne_nil hne
  have ha : isspace a = false := hns a (List.mem_cons_self _ _)
  have h1 : (pre ++ (a :: as ++ c :: rest)).dropWhile isspace = a :: (as ++ c :: rest) := by
    rw [List.cons_append]
    exact dropWhile_run isspace pre a _ hpre ha
  have hw' : ∀ x ∈ a :: as, (fun x => !isspace x) x = true := by
    intro x hx
    simp [hns x hx]
  have h2 := takeWhile_run (fun x => !isspace x) (a :: as) c rest hw' (by simp [hc])
  have h3 := dropWhile_run (fun x => !isspace x) (a :: as) c rest hw' (by simp [hc])
  unfold read_word
  rw [h1]
  simp only [← List.cons_append]
  rw [h2, h3]

theorem read_word_none (pre : Str) (hpre : ∀ x ∈ pre, isspace x = true) : read_word pre = none := by
  unfold read_word
  rw [List.dropWhile_eq_nil_iff.2 hpre]

theorem read_int_nat (pre ds : Str) (c : Char) (rest : Str)
    (hpre : ∀ x ∈ pre, isspace x = true) (hne : ds ≠ [])
    (hds : ∀ x ∈ ds, isdigit x = true) (hc : isdigit c = false)
    (hr : (digits_value ds : Int) ≤ INT_MAX) :
    read_int (pre ++ (ds ++ c :: rest)) = some ((digits_value ds : Int), c :: rest) := by
  obtain ⟨a, as, rfl⟩ := List.exists_cons_of_ne_nil hne
  have ha : isdigit a = true := hds a (List.mem_cons_self _ _)
  have h1 : (pre ++ (a :: as ++ c :: rest)).dropWhile isspace = a :: (as ++ c :: rest) := by
    rw [List.cons_append]
    exact dropWhile_run isspace pre a _ hpre (isdigit_not_space a ha)
  have h2 := takeWhile_run isdigit (a :: as) c rest hds hc
  have h3 := dropWhile_run isdigit (a :: as) c rest hds hc
  obtain ⟨hm, hp⟩ := isdigit_ne_sign a ha
  have hlo : INT_MIN ≤ (digits_value (a :: as) : Int) := by
    unfold INT_MIN
    omega
  unfold read_int
  simp only [h1, hm, hp, if_false]
  simp only [← List.cons_append]
  rw [h2, h3]
  simp [hlo, hr]

theorem read_int_neg (pre ds : Str) (c : Char) (rest : Str)
    (hpre : ∀ x ∈ pre, isspace x = true) (hne : ds ≠ [])
    (hds : ∀ x ∈ ds, isdigit x = true) (hc : isdigit c = false)
    (hr : INT_MIN ≤ -(digits_value ds : Int)) :
    read_int (pre ++ (Char.ofNat 45 :: (ds ++ c :: rest))) =
      some (-(digits_value ds : Int), c :: rest) := by
  have h1 : (pre ++ (Char.ofNat 45 :: (ds ++ c :: rest))).dropWhile isspace
      = Char.ofNat 45 :: (ds ++ c :: rest) :=
    dropWhile_run isspace pre _ _ hpre (by decide)
  have h2 := takeWhile_run isdigit ds c rest hds hc
  have h3 := dropWhile_run isdigit ds c rest hds hc
  have hhi : -(digits_value ds : Int) ≤ INT_MAX := by
    unfold INT_MAX
    omega
  unfold read_int
  simp only [h1, if_true]
  rw [h2, h3]
  simp [hne, hhi, hr]

theorem read_int_print (pre : Str) (k : Int) (c : Char) (rest : Str)
    (hpre : ∀ x ∈ pre, isspace x = true) (hk : in_int_range k) (hc : isdigit c = false) :
    read_int (pre ++ (print_int k ++ c :: rest)) = some (k, c :: rest) := by
  unfold print_int
  by_cases hneg : k < 0
  · obtain ⟨h1, h2, h3⟩ := dec_digits_spec (-k).toNat
    have hv : -((digits_value (dec_digits (-k).toNat) : Nat) : Int) = k := by
      rw [h3]
      omega
    rw [if_pos hneg, List.cons_append,
      read_int_neg pre _ c rest hpre h1 h2 hc (by rw [hv]; exact hk.1), hv]
  · obtain ⟨h1, h2, h3⟩ := dec_digits_spec k.toNat
    have hv : ((digits_value (dec_digits k.toNat) : Nat) : Int) = k := by
      rw [h3]
      omega
    rw [if_neg hneg, read_int_nat pre _ c rest hpre h1 h2 hc (by rw [hv]; exact hk.2), hv]

theorem reduce_loop_encode (m : WordCountMap) (pre : Str) (g : WordCountMap) (fuel : Nat)
    (hpre : ∀ x ∈ pre, isspace x = true)
    (hm : ∀ p ∈ m, is_word p.1 ∧ in_int_range p.2) (hf : m.length < fuel) :
    reduce_loop fuel (pre ++ encode_table m) g = merge_maps g m := by
  induction m generalizing pre g fuel with
  | nil =>
    obtain ⟨f, rfl⟩ : ∃ f, fuel = f + 1 := ⟨fuel - 1, by simp at hf; omega⟩
    simp [reduce_loop, encode_table, read_word_none pre hpre, merge_maps]
  | cons p rest ih =>
    obtain ⟨f, rfl⟩ : ∃ f, fuel = f + 1 := ⟨fuel - 1, by simp at hf; omega⟩
    obtain ⟨hw, hk⟩ := hm p (List.mem_cons_self _ _)
    have hsp : isspace (Char.ofNat 32) = true := by decide
    have hnl : isdigit NL = false := by decide
    have hnls : ∀ x ∈ [NL], isspace x = true := by decide
    have h1 := read_word_spec pre p.1 (Char.ofNat 32) (print_int p.2 ++ NL :: encode_table rest)
      hpre hw hsp
    have h2 := read_int_print [Char.ofNat 32] p.2 NL (encode_table rest) (by simpa using hsp) hk hnl
    have h3 := ih [NL] (add_to g p.1 p.2) f hnls
      (fun q hq => hm q (List.mem_cons_of_mem _ hq)) (by simp at hf; omega)
    simp only [List.singleton_append] at h2 h3
    simp only [reduce_loop, encode_table, h1, h2, h3, merge_maps, List.foldl_cons]

/-! ## Payloads without a zero byte -/

theorem c_string_of_no_NUL (s : Str) (h : NUL ∉ s) : c_string (s ++ [NUL]) = s := by
  unfold c_string
  refine takeWhile_run (fun c => c != NUL) s NUL [] ?_ (by simp)
  intro x hx
  have : x ≠ NUL := fun e => h (e ▸ hx)
  simpa using this

theorem received_of_no_NUL (s : Str) (h : NUL ∉ s) : received s = s := by
  unfold received
  rw [List.take_length, c_string_of_no_NUL s h]

theorem isdigit_ne_NUL (c : Char) (h : isdigit c = true) : c ≠ NUL := by
  intro e
  subst e
  simp [isdigit, NUL] at h

theorem NUL_not_mem_print_int (k : Int) : NUL ∉ print_int k := by
  unfold print_int
  intro h
  split_ifs at h
  · rcases List.mem_cons.1 h with h | h
    · revert h; decide
    · exact isdigit_ne_NUL _ ((dec_digits_spec _).2.1 _ h) rfl
  · exact isdigit_ne_NUL _ ((dec_digits_spec _).2.1 _ h) rfl

theorem NUL_not_mem_encode_table (m : WordCountMap) (h : ∀ p ∈ m, NUL ∉ p.1) :
    NUL ∉ encode_table m := by
  induction m with
  | nil => simp [encode_table]
  | cons p rest ih =>
    have h1 := h p (List.mem_cons_self _ _)
    have h2 := ih (fun q hq => h q (List.mem_cons_of_mem _ hq))
    have h3 := NUL_not_mem_print_int p.2
    have h4 : NUL ≠ Char.ofNat 32 := by decide
    have h5 : NUL ≠ NL := by decide
    simp only [encode_table, List.mem_append, List.mem_cons, not_or]
    exact ⟨h1, h4, h3, h5, h2⟩

theorem length_le_encode_table (m : WordCountMap) : m.length ≤ (encode_table m).length := by
  induction m with
  | nil => simp
  | cons p rest ih =>
    simp only [encode_table, List.length_cons, List.length_append]
    omega

/-- The reduction round of a payload that encodes a table of words without a zero
byte: the pairs are added in the order of the payload. -/
theorem reduce_payload_encode (m g : WordCountMap)
    (hm : ∀ p ∈ m, is_word p.1 ∧ in_int_range p.2) (hz : ∀ p ∈ m, NUL ∉ p.1) :
    reduce_payload g (encode_table m) = merge_maps g m := by
  unfold reduce_payload
  rw [received_of_no_NUL _ (NUL_not_mem_encode_table m hz)]
  have h := reduce_loop_encode m [] g ((encode_table m).length + 1) (by simp) hm
    (by have := length_le_encode_table m; omega)
  simpa using h

theorem add_to_of_not_mem (a : WordCountMap) (w : Str) (k : Int) (h : w ∉ a.map Prod.fst) :
    add_to a w k = a ++ [(w, k)] := by
  induction a with
  | nil => simp [add_to]
  | cons p rest ih =>
    obtain ⟨w0, c⟩ := p
    simp only [List.map_cons, List.mem_cons, not_or] at h
    have h0 : ¬ w0 = w := fun e => h.1 e.symm
    simp [add_to, h0, ih h.2]

theorem merge_maps_append (b a : WordCountMap) (h : WF (a ++ b)) : merge_maps a b = a ++ b := by
  unfold merge_maps
  induction b generalizing a with
  | nil => simp
  | cons p rest ih =>
    have hp : p.1 ∉ a.map Prod.fst := by
      unfold WF at h
      rw [List.map_append, List.map_cons] at h
      exact fun hmem => (List.nodup_append.1 h).2.2 hmem (List.mem_cons_self _ _)
    have h' : WF ((a ++ [p]) ++ rest) := by simpa using h
    rw [List.foldl_cons, add_to_of_not_mem a p.1 p.2 hp, ih _ h']
    simp

theorem merge_maps_nil_left (b : WordCountMap) (h : WF b) : merge_maps [] b = b := by
  simpa using merge_maps_append b [] (by simpa using h)

theorem tolower_not_space (c : Char) (h : isspace c = false) : isspace (tolower c) = false := by
  unfold tolower
  split_ifs with hu
  · simp only [isupper, Bool.and_eq_true, decide_eq_true_eq] at hu
    simp [isspace, char_toNat_ofNat (c.toNat + 32) (by omega)]
    omega
  · exact h

theorem tolower_ne_NUL (c : Char) (h : c ≠ NUL) : tolower c ≠ NUL := by
  unfold tolower
  split_ifs with hu
  · simp only [isupper, Bool.and_eq_true, decide_eq_true_eq] at hu
    intro e
    have h1 := congrArg Char.toNat e
    rw [char_toNat_ofNat (c.toNat + 32) (by omega)] at h1
    have h2 : NUL.toNat = 0 := by decide
    omega
  · exact h

theorem stream_words_chars (text cur w : Str) (hw : w ∈ stream_words text cur) :
    ∀ c ∈ w, c ∈ cur ∨ (c ∈ text ∧ isspace c = false) := by
  induction text generalizing cur with
  | nil =>
    unfold stream_words at hw
    split_ifs at hw
    · simp at hw
    · rw [List.mem_singleton.1 hw]
      exact fun c hc => Or.inl hc
  | cons a as ih =>
    unfold stream_words at hw
    intro c hc
    by_cases hsp : isspace a = true
    · rw [if_pos hsp] at hw
      have hrec : w ∈ stream_words as [] → c ∈ cur ∨ (c ∈ a :: as ∧ isspace c = false) := by
        intro h1
        rcases ih [] h1 c hc with h2 | h2
        · simp at h2
        · exact Or.inr ⟨List.mem_cons_of_mem _ h2.1, h2.2⟩
      split_ifs at hw
      · exact hrec hw
      · rcases List.mem_cons.1 hw with h1 | h1
        · exact Or.inl (h1 ▸ hc)
        · exact hrec h1
    · rw [if_neg hsp] at hw
      rcases ih (cur ++ [a]) hw c hc with h2 | h2
      · rcases List.mem_append.1 h2 with h3 | h3
        · exact Or.inl h3
        · rw [List.mem_singleton.1 h3]
          exact Or.inr ⟨List.mem_cons_self _ _, by simpa using hsp⟩
      · exact Or.inr ⟨List.mem_cons_of_mem _ h2.1, h2.2⟩

theorem tokenize_is_word (line w : Str) (hw : w ∈ tokenize line) :
    is_word w ∧ (NUL ∉ line → NUL ∉ w) := by
  unfold tokenize at hw
  obtain ⟨h1, h2⟩ := List.mem_filter.1 hw
  obtain ⟨u, hu, rfl⟩ := List.mem_map.1 h1
  have hchars : ∀ c ∈ normalize u, ∃ c', c' ∈ line ∧ isspace c' = false ∧ c = tolower c' := by
    intro c hc
    unfold normalize at hc
    obtain ⟨c', hc', rfl⟩ := List.mem_map.1 hc
    have h3 := (List.mem_filter.1 hc').1
    rcases stream_words_chars line [] u hu c' h3 with h4 | h4
    · simp at h4
    · exact ⟨c', h4.1, h4.2, rfl⟩
  refine ⟨⟨?_, ?_⟩, ?_⟩
  · intro e
    simp [e] at h2
  · intro c hc
    obtain ⟨c', _, h4, rfl⟩ := hchars c hc
    exact tolower_not_space c' h4
  · intro hz hmem
    obtain ⟨c', h3, _, h5⟩ := hchars NUL hmem
    exact tolower_ne_NUL c' (fun e => hz (e ▸ h3)) h5.symm

/-! ## Blocks -/

theorem blocks_take (P : Nat) (all_lines : List Str) (hn : (all_lines.length : Int) ≤ INT_MAX)
    (hP : 1 ≤ P) (k : Nat) (hk : k ≤ P) :
    (List.range k).flatMap (block P all_lines) = all_lines.take (part_start all_lines.length P k) := by
  induction k with
  | zero => simp [part_start_zero]
  | succ k ih =>
    rw [List.range_succ, List.flatMap_append, ih (by omega), part_start_succ, List.take_add]
    simp [block_eq P all_lines k hn hP (by omega)]

theorem blocks_cover (P : Nat) (all_lines : List Str) (hn : (all_lines.length : Int) ≤ INT_MAX)
    (hP : 1 ≤ P) :
    (List.range P).flatMap (block P all_lines) = all_lines := by
  rw [blocks_take P all_lines hn hP P (Nat.le_refl _), part_start_total _ P hP, List.take_length]

theorem mem_of_mem_block (P : Nat) (all_lines : List Str) (i : Nat) (l : Str)
    (h : l ∈ block P all_lines i) : l ∈ all_lines :=
  List.mem_of_mem_drop (List.mem_of_mem_take h)

theorem all_tokens_append (xs ys : List Str) :
    all_tokens (xs ++ ys) = all_tokens xs ++ all_tokens ys := by
  simp [all_tokens]

theorem all_tokens_blocks (P : Nat) (all_lines : List Str) (idx : List Nat) :
    idx.flatMap (fun i => all_tokens (block P all_lines i))
      = all_tokens (idx.flatMap (block P all_lines)) := by
  induction idx with
  | nil => rfl
  | cons i rest ih => simp [all_tokens_append, ih]

theorem range_eq_zero_cons (P : Nat) (hP : 1 ≤ P) : List.range P = 0 :: List.range' 1 (P - 1) := by
  obtain ⟨n, rfl⟩ : ∃ n, P = n + 1 := ⟨P - 1, by omega⟩
  rw [List.range_eq_range', List.range'_succ]
  simp

/-! ## Counts add up -/

/-- A table with unique keys that stores under every word its number of occurrences
in `toks`, and nothing under a word that does not occur, has counts that sum to the
length of `toks`. -/
theorem total_count_of_occurrences (m : WordCountMap) (toks : List Str) (hm : WF m)
    (hf : ∀ w, find m w =
      if toks.countP (fun t => decide (t = w)) = 0 then none
      else some (toks.countP (fun t => decide (t = w)) : Int)) :
    total_count m = (toks.length : Int) := by
  induction m generalizing toks with
  | nil =>
    cases toks with
    | nil => rfl
    | cons t rest =>
      have h := hf t
      simp [find, List.countP_cons] at h
  | cons p rest ih =>
    obtain ⟨w0, c0⟩ := p
    simp only [WF, List.map_cons, List.nodup_cons] at hm
    have h0 := hf w0
    simp only [find, if_true] at h0
    have hc0 : c0 = (toks.countP (fun t => decide (t = w0)) : Int) := by
      split_ifs at h0
      simpa using h0
    have hrest : ∀ w, find rest w =
        if (toks.filter (fun t => !decide (t = w0))).countP (fun t => decide (t = w)) = 0 then none
        else some ((toks.filter (fun t => !decide (t = w0))).countP
          (fun t => decide (t = w)) : Int) := by
      intro w
      by_cases hw : w0 = w
      · subst hw
        have hz : (toks.filter (fun t => !decide (t = w0))).countP (fun t => decide (t = w0)) = 0 := by
          rw [List.countP_filter]
          exact List.countP_eq_zero.2 (fun a _ => by simp)
        rw [hz, if_pos rfl]
        exact (find_eq_none_iff rest w0).2 hm.1
      · have he : (toks.filter (fun t => !decide (t = w0))).countP (fun t => decide (t = w))
            = toks.countP (fun t => decide (t = w)) := by
          rw [List.countP_filter]
          apply List.countP_congr
          intro x _
          simp only [Bool.and_eq_true, decide_eq_true_eq, Bool.not_eq_true', decide_eq_false_iff_not]
          constructor
          · exact fun h => h.1
          · intro h
            exact ⟨h, fun e => hw (e.symm.trans h)⟩
        have h1 := hf w
        simp only [find, hw, if_false] at h1
        rw [he]
        exact h1
    have hlen := List.length_eq_countP_add_countP (fun t => decide (t = w0)) toks
    have hfl : toks.countP (fun a => decide ¬(decide (a = w0) = true))
        = (toks.filter (fun t => !decide (t = w0))).length := by
      rw [List.countP_eq_length_filter]
      congr 1
      apply List.filter_congr
      intro x _
      simp
    have hsum := ih (toks.filter (fun t => !decide (t = w0))) hm.2 hrest
    unfold total_count at hsum ⊢
    simp only [List.map_cons, List.sum_cons, hsum, hc0]
    rw [hlen, hfl]
    push_cast
    rfl

theorem spec_find_of_le (n : Nat) (h : (n : Int) ≤ INT_MAX) :
    spec_find n = if n = 0 then none else some (n : Int) := by
  unfold spec_find
  rw [wrap_int_of_range (n : Int) (by unfold INT_MIN; omega) h]

/-- Count conservation in `count_words`: when the number of tokens is an `int`, the
counts sum to the number of tokens. -/
theorem total_count_count_words_sched (lines : List Str) (sched : List (List Nat))
    (h : ValidSched lines.length sched) (hr : ((all_tokens lines).length : Int) ≤ INT_MAX) :
    total_count (count_words_sched lines sched) = ((all_tokens lines).length : Int) := by
  apply total_count_of_occurrences _ _ (WF_count_words_sched lines sched)
  intro w
  have hle : (all_tokens lines).countP (fun t => decide (t = w)) ≤ (all_tokens lines).length :=
    List.countP_le_length _
  rw [find_count_words_sched lines sched h w]
  exact spec_find_of_le _ (by unfold occurrences; omega)

/-! ## The tables of the participants -/

theorem NUL_not_mem_c_string (buffer : Str) : NUL ∉ c_string buffer := by
  intro h
  have := List.mem_takeWhile_imp h
  simp at this

theorem NUL_not_mem_received (payload : Str) : NUL ∉ received payload :=
  NUL_not_mem_c_string _

theorem mem_all_tokens_of_countP (lines : List Str) (w : Str)
    (h : (all_tokens lines).countP (fun t => decide (t = w)) ≠ 0) :
    ∃ l ∈ lines, w ∈ tokenize l := by
  have hpos : 0 < (all_tokens lines).countP (fun t => decide (t = w)) := Nat.pos_of_ne_zero h
  obtain ⟨t, ht, he⟩ := List.countP_pos_iff.1 hpos
  have he' : t = w := by simpa using he
  subst he'
  unfold all_tokens at ht
  obtain ⟨l, hl, hw⟩ := List.mem_flatMap.1 ht
  exact ⟨l, hl, hw⟩

/-- Every entry of the table `count_words` returns has a token of some line as its
key and an `int` as its count. -/
theorem count_words_sched_entries (lines : List Str) (sched : List (List Nat))
    (hs : ValidSched lines.length sched) :
    ∀ p ∈ count_words_sched lines sched, (∃ l ∈ lines, p.1 ∈ tokenize l) ∧ in_int_range p.2 := by
  intro p hp
  have h1 := find_of_mem _ (WF_count_words_sched lines sched) p.1 p.2 hp
  rw [find_count_words_sched lines sched hs p.1] at h1
  unfold spec_find occurrences at h1
  split_ifs at h1 with h0
  simp only [Option.some.injEq] at h1
  refine ⟨mem_all_tokens_of_countP _ _ h0, ?_⟩
  rw [← h1]
  exact wrap_int_range _

/-! ## The pipeline on lines without a zero byte -/

theorem NUL_not_mem_serialize (lines : List Str) (h : ∀ l ∈ lines, NUL ∉ l) :
    NUL ∉ serialize_lines lines := by
  induction lines with
  | nil => simp [serialize_lines]
  | cons l rest ih =>
    have h1 := h l (List.mem_cons_self _ _)
    have h2 := ih (fun x hx => h x (List.mem_cons_of_mem _ hx))
    have h3 : NUL ≠ NL := by decide
    simp only [serialize_lines, List.mem_append, List.mem_cons, not_or]
    exact ⟨h1, h3, h2⟩

theorem local_lines_clean (P : Nat) (all_lines : List Str) (i : Nat) (h : clean all_lines) :
    local_lines P all_lines i = block P all_lines i := by
  unfold local_lines
  split_ifs with h0
  · rw [h0]
  · have hb : ∀ l ∈ block P all_lines i, NUL ∉ l ∧ NL ∉ l :=
      fun l hl => h l (mem_of_mem_block P all_lines i l hl)
    rw [received_of_no_NUL _ (NUL_not_mem_serialize _ (fun l hl => (hb l hl).1)),
      split_serialize _ (fun l hl => (hb l hl).2)]

theorem local_map_clean (P : Nat) (all_lines : List Str) (sched : Nat → List (List Nat)) (i : Nat)
    (hc : clean all_lines)
    (hs : ValidSched (local_lines P all_lines i).length (sched i)) :
    (∀ w, find (local_map P all_lines sched i) w
        = spec_find ((all_tokens (block P all_lines i)).countP (fun t => decide (t = w)))) ∧
    ∀ g, reduce_payload g (encode_table (local_map P all_lines sched i))
        = merge_maps g (local_map P all_lines sched i) := by
  have hl := local_lines_clean P all_lines i hc
  have hentry := count_words_sched_entries (local_lines P all_lines i) (sched i) hs
  unfold local_map
  rw [hl] at hs hentry ⊢
  refine ⟨find_count_words_sched (block P all_lines i) (sched i) hs, fun g => ?_⟩
  have hkey : ∀ p ∈ count_words_sched (block P all_lines i) (sched i),
      (is_word p.1 ∧ in_int_range p.2) ∧ NUL ∉ p.1 := by
    intro p hp
    obtain ⟨⟨l, hl', hw⟩, hr⟩ := hentry p hp
    obtain ⟨h2, h3⟩ := tokenize_is_word l p.1 hw
    exact ⟨⟨h2, hr⟩, h3 (hc l (mem_of_mem_block P all_lines i l hl')).1⟩
  exact reduce_payload_encode _ g (fun p hp => (hkey p hp).1) (fun p hp => (hkey p hp).2)

theorem local_map_WF (P : Nat) (all_lines : List Str) (sched : Nat → List (List Nat)) (i : Nat) :
    WF (local_map P all_lines sched i) :=
  WF_count_words_sched _ _

theorem reduction_fold_clean (P : Nat) (all_lines : List Str) (sched : Nat → List (List Nat))
    (hc : clean all_lines)
    (idx : List Nat) (hs : ∀ i ∈ idx, ValidSched (local_lines P all_lines i).length (sched i))
    (g : WordCountMap) (toks0 : List Str) (hwf : WF g)
    (hg : ∀ w, find g w = spec_find (toks0.countP (fun t => decide (t = w)))) :
    (∀ w, find (idx.foldl
        (fun g i => reduce_payload g (encode_table (local_map P all_lines sched i))) g) w
      = spec_find ((toks0 ++ idx.flatMap (fun i => all_tokens (block P all_lines i))).countP
          (fun t => decide (t = w)))) ∧
    WF (idx.foldl
        (fun g i => reduce_payload g (encode_table (local_map P all_lines sched i))) g) := by
  induction idx generalizing g toks0 with
  | nil => exact ⟨by simpa using hg, hwf⟩
  | cons i rest ih =>
    obtain ⟨h1, h3⟩ := local_map_clean P all_lines sched i hc (hs i (List.mem_cons_self _ _))
    have hstep : ∀ w, find (merge_maps g (local_map P all_lines sched i)) w
        = spec_find ((toks0 ++ all_tokens (block P all_lines i)).countP
            (fun t => decide (t = w))) := by
      intro w
      rw [List.countP_append]
      exact spec_find_merge g _ (local_map_WF P all_lines sched i) _ _ w (hg w) (h1 w)
    obtain ⟨h4, h5⟩ := ih (fun j hj => hs j (List.mem_cons_of_mem _ hj))
      (merge_maps g (local_map P all_lines sched i)) (toks0 ++ all_tokens (block P all_lines i))
      (WF_merge_maps _ _ hwf) hstep
    rw [List.foldl_cons, h3]
    refine ⟨fun w => ?_, h5⟩
    rw [h4 w, List.flatMap_cons, List.append_assoc]

/-- The reduction on clean input, with `int` counters: when no line holds a zero byte
or a line break and the number of lines is an `int`, the global table has unique keys
and stores under every word that occurs its number of occurrences in the whole input,
reduced to an `int`, and nothing under a word that does not occur. -/
theorem find_global_map_clean (P : Nat) (all_lines : List Str)
    (sched : Nat → List (List Nat)) (hP : 1 ≤ P) (hc : clean all_lines)
    (hs : ∀ i, i < P → ValidSched (local_lines P all_lines i).length (sched i))
    (hn : (all_lines.length : Int) ≤ INT_MAX) :
    (∀ w, find (global_map P all_lines sched) w = spec_find (occurrences w all_lines)) ∧
    WF (global_map P all_lines sched) := by
  obtain ⟨h1, _⟩ := local_map_clean P all_lines sched 0 hc (hs 0 (by omega))
  have hidx : ∀ i ∈ List.range' 1 (P - 1), ValidSched (local_lines P all_lines i).length (sched i) := by
    intro i hi
    have := List.mem_range'_1.1 hi
    exact hs i (by omega)
  obtain ⟨h3, h4⟩ := reduction_fold_clean P all_lines sched hc (List.range' 1 (P - 1)) hidx
    (local_map P all_lines sched 0) (all_tokens (block P all_lines 0))
    (local_map_WF P all_lines sched 0) h1
  have hcover : all_tokens (block P all_lines 0) ++
      (List.range' 1 (P - 1)).flatMap (fun i => all_tokens (block P all_lines i))
        = all_tokens all_lines := by
    have h5 := all_tokens_blocks P all_lines (List.range P)
    rw [blocks_cover P all_lines hn hP, range_eq_zero_cons P hP, List.flatMap_cons] at h5
    exact h5
  unfold global_map
  refine ⟨fun w => ?_, h4⟩
  rw [h3 w, hcover]
  rfl

/-- The reduction on clean input: when no line holds a zero byte or a line break and
the numbers of lines and of tokens are `int` values, the global table stores under
every word its number of occurrences in the whole input, has no entry for a word that
does not occur, and its counts sum to the number of tokens. -/
theorem global_map_of_clean_input (P : Nat) (all_lines : List Str)
    (sched : Nat → List (List Nat)) (hP : 1 ≤ P) (hc : clean all_lines)
    (hs : ∀ i, i < P → ValidSched (local_lines P all_lines i).length (sched i))
    (hn : (all_lines.length : Int) ≤ INT_MAX)
    (hr : ((all_tokens all_lines).length : Int) ≤ INT_MAX) :
    (∀ w, find (global_map P all_lines sched) w =
      if occurrences w all_lines = 0 then none else some (occurrences w all_lines : Int)) ∧
    total_count (global_map P all_lines sched) = ((all_tokens all_lines).length : Int) := by
  obtain ⟨h1, h2⟩ := find_global_map_clean P all_lines sched hP hc hs hn
  have hfind : ∀ w, find (global_map P all_lines sched) w =
      if occurrences w all_lines = 0 then none else some (occurrences w all_lines : Int) := by
    intro w
    have hle : (all_tokens all_lines).countP (fun t => decide (t = w))
        ≤ (all_tokens all_lines).length := List.countP_le_length _
    rw [h1 w]
    exact spec_find_of_le _ (by unfold occurrences; omega)
  exact ⟨hfind, total_count_of_occurrences _ _ h2 hfind⟩

/-- Witness of `global_map_of_clean_input`: the scenario lines with two participants. -/
theorem global_map_of_clean_input_witness :
    (∀ w, find (global_map 2 scenario_lines (one_thread 2 scenario_lines)) w
      = if occurrences w scenario_lines = 0 then none
        else some (occurrences w scenario_lines : Int)) ∧
    total_count (global_map 2 scenario_lines (one_thread 2 scenario_lines))
      = ((all_tokens scenario_lines).length : Int) :=
  global_map_of_clean_input 2 scenario_lines (one_thread 2 scenario_lines) (by decide) (by decide)
    (fun _ _ => validSched_one_thread _) (by decide) (by decide)

/-! ## The line-block format -/

theorem serialize_lines_eq_flatMap (lines : List Str) :
    serialize_lines lines = lines.flatMap (fun line => line ++ [NL]) := by
  induction lines with
  | nil => rfl
  | cons l rest ih => simp [serialize_lines, ih]

theorem length_serialize_lines (lines : List Str) :
    (serialize_lines lines).length = (lines.map List.length).sum + lines.length := by
  induction lines with
  | nil => rfl
  | cons l rest ih =>
    simp only [serialize_lines, List.length_append, List.length_cons, ih, List.map_cons,
      List.sum_cons]
    omega

/-! ## Slices -/

theorem part_end_le (N P i : Nat) (hP : 1 ≤ P) (hi : i < P) :
    part_start N P i + part_count N P i ≤ N := by
  rw [← part_start_succ]
  have h := part_start_mono N P (show i + 1 ≤ P by omega)
  rw [part_start_total N P hP] at h
  exact h

theorem length_slice (all_lines : List Str) (s c : Nat) (h : s + c ≤ all_lines.length) :
    (slice all_lines (s : Int) (c : Int)).length = c := by
  simp [slice]
  omega

theorem getElem?_slice (all_lines : List Str) (s c j : Nat) (hj : j < c) :
    (slice all_lines (s : Int) (c : Int))[j]? = all_lines[s + j]? := by
  simp [slice, List.getElem?_take, hj]

/-! ## White space around a line -/

theorem stream_words_spaces (ws cur : Str) (h : ∀ c ∈ ws, isspace c = true) :
    stream_words ws cur = if cur = [] then [] else [cur] := by
  induction ws generalizing cur with
  | nil => rfl
  | cons c cs ih =>
    have hc : isspace c = true := h c (List.mem_cons_self _ _)
    have hcs := ih [] (fun x hx => h x (List.mem_cons_of_mem _ hx))
    simp only [stream_words, hc, if_true, hcs]

theorem stream_words_leading (ws s : Str) (h : ∀ c ∈ ws, isspace c = true) :
    stream_words (ws ++ s) [] = stream_words s [] := by
  induction ws with
  | nil => rfl
  | cons c cs ih =>
    have hc : isspace c = true := h c (List.mem_cons_self _ _)
    simp only [List.cons_append, stream_words, hc, if_true]
    exact ih (fun x hx => h x (List.mem_cons_of_mem _ hx))

theorem stream_words_trailing (s ws cur : Str) (h : ∀ c ∈ ws, isspace c = true) :
    stream_words (s ++ ws) cur = stream_words s cur := by
  induction s generalizing cur with
  | nil =>
    rw [List.nil_append, stream_words_spaces ws cur h]
    simp [stream_words]
  | cons c cs ih =>
    rw [List.cons_append]
    unfold stream_words
    simp only [ih]

/-! ## Tokens are normalized -/

theorem tolower_not_punct (c : Char) (h : ispunct c = false) : ispunct (tolower c) = false := by
  unfold tolower
  split_ifs with hu
  · simp only [isupper, Bool.and_eq_true, decide_eq_true_eq] at hu
    simp [ispunct, char_toNat_ofNat (c.toNat + 32) (by omega)]
    omega
  · exact h

theorem tolower_not_upper (c : Char) : isupper (tolower c) = false := by
  unfold tolower
  split_ifs with hu
  · simp only [isupper, Bool.and_eq_true, decide_eq_true_eq] at hu
    simp [isupper, char_toNat_ofNat (c.toNat + 32) (by omega)]
    omega
  · simpa using hu

theorem normalize_chars (word : Str) (c : Char) (hc : c ∈ normalize word) :
    ispunct c = false ∧ isupper c = false := by
  unfold normalize at hc
  obtain ⟨c', hc', rfl⟩ := List.mem_map.1 hc
  have h := (List.mem_filter.1 hc').2
  exact ⟨tolower_not_punct c' (by simpa using h), tolower_not_upper c'⟩

theorem stream_words_eq_splitOnP (text cur : Str) :
    stream_words text cur =
      ((text.splitOnP isspace).modifyHead (fun w => cur ++ w)).filter (fun w => !w.isEmpty) := by
  induction text generalizing cur with
  | nil =>
    simp only [stream_words, List.splitOnP_nil, List.modifyHead_cons, List.append_nil]
    by_cases h : cur = []
    · simp [h]
    · have h' : cur.isEmpty = false := by simpa [List.isEmpty_iff] using h
      simp [h, List.filter_cons, h']
  | cons c cs ih =>
    rw [List.splitOnP_cons]
    by_cases hc : isspace c = true
    · have h0 := ih []
      simp only [List.nil_append] at h0
      have hid : (List.splitOnP isspace cs).modifyHead (fun w => w) = List.splitOnP isspace cs := by
        cases List.splitOnP isspace cs <;> rfl
      rw [hid] at h0
      simp only [stream_words, hc, if_true, List.modifyHead_cons, List.append_nil, h0]
      by_cases h : cur = []
      · simp [h]
      · have h' : cur.isEmpty = false := by simpa [List.isEmpty_iff] using h
        simp [h, List.filter_cons, h']
    · have hm : ((List.splitOnP isspace cs).modifyHead (List.cons c)).modifyHead (fun w => cur ++ w)
          = (List.splitOnP isspace cs).modifyHead (fun w => (cur ++ [c]) ++ w) := by
        cases List.splitOnP isspace cs <;> simp
      simp only [stream_words, hc, if_false, ih (cur ++ [c])]
      rw [← hm]
      simp [hc]

theorem stream_words_eq_ws_words (line : Str) : stream_words line [] = ws_words line := by
  rw [stream_words_eq_splitOnP]
  unfold ws_words
  congr 1
  cases List.splitOnP isspace line <;> rfl

/-! ## Counting and concatenation -/

theorem occurrences_append (w : Str) (xs ys : List Str) :
    occurrences w (xs ++ ys) = occurrences w xs + occurrences w ys := by
  simp [occurrences, all_tokens_append]

/-! ## The reduction parser -/

theorem dropWhile_head (p : Char → Bool) (s : Str) (c : Char) (cs : Str)
    (h : s.dropWhile p = c :: cs) : p c = false := by
  induction s with
  | nil => simp at h
  | cons a as ih =>
    by_cases ha : p a = true
    · rw [List.dropWhile_cons_of_pos ha] at h
      exact ih h
    · rw [List.dropWhile_cons_of_neg ha] at h
      cases h
      simpa using ha

theorem isspace_not_digit (c : Char) (h : isspace c = true) : isdigit c = false := by
  cases hd : isdigit c with
  | false => rfl
  | true => rw [isdigit_not_space c hd] at h; cases h

theorem read_word_eq_some (s w r : Str) (h : read_word s = some (w, r)) :
    s.dropWhile isspace = w ++ r ∧ w ≠ [] ∧ (∀ c ∈ w, isspace c = false) ∧
      (∀ c, r.head? = some c → isspace c = true) := by
  unfold read_word at h
  cases hd : s.dropWhile isspace with
  | nil => rw [hd] at h; cases h
  | cons c cs =>
    rw [hd] at h
    simp only [Option.some.injEq, Prod.mk.injEq] at h
    obtain ⟨hw, hr⟩ := h
    have hc : isspace c = false := dropWhile_head isspace s c cs hd
    refine ⟨?_, ?_, ?_, ?_⟩
    · rw [← hw, ← hr, List.takeWhile_append_dropWhile]
    · rw [← hw, List.takeWhile_cons_of_pos (by simp [hc])]
      simp
    · intro x hx
      rw [← hw] at hx
      simpa using List.mem_takeWhile_imp hx
    · intro x hx
      cases hr' : r with
      | nil => rw [hr'] at hx; cases hx
      | cons y ys =>
        rw [hr'] at hx
        simp only [List.head?_cons, Option.some.injEq] at hx
        subst hx
        have := dropWhile_head (fun x => !isspace x) (c :: cs) y ys (hr.trans hr')
        simpa using this

theorem read_word_eq_none (s : Str) (h : read_word s = none) :
    ∀ c ∈ s, isspace c = true := by
  unfold read_word at h
  cases hd : s.dropWhile isspace with
  | nil => exact List.dropWhile_eq_nil_iff.1 hd
  | cons c cs => rw [hd] at h; cases h

theorem stream_words_dropWhile (s : Str) :
    stream_words s [] = stream_words (s.dropWhile isspace) [] := by
  have h := stream_words_leading (s.takeWhile isspace) (s.dropWhile isspace)
    (fun c hc => List.mem_takeWhile_imp hc)
  rw [List.takeWhile_append_dropWhile] at h
  exact h

theorem stream_words_word (w r cur : Str) (hw : ∀ c ∈ w, isspace c = false)
    (hne : cur ++ w ≠ []) (hr : ∀ c, r.head? = some c → isspace c = true) :
    stream_words (w ++ r) cur = (cur ++ w) :: stream_words r [] := by
  induction w generalizing cur with
  | nil =>
    have hcur : cur ≠ [] := by simpa using hne
    cases r with
    | nil => simp [stream_words, hcur]
    | cons c cs =>
      have hc : isspace c = true := hr c rfl
      simp [stream_words, hc, hcur]
  | cons a as ih =>
    have ha : isspace a = false := hw a (List.mem_cons_self _ _)
    have h := ih (cur ++ [a]) (fun c hc => hw c (List.mem_cons_of_mem _ hc)) (by simp)
    simp only [List.cons_append, stream_words, ha]
    simpa using h

theorem stream_words_of_read_word (s w r : Str) (h : read_word s = some (w, r)) :
    stream_words s [] = w :: stream_words r [] := by
  obtain ⟨h1, h2, h3, h4⟩ := read_word_eq_some s w r h
  rw [stream_words_dropWhile, h1]
  simpa using stream_words_word w r [] h3 (by simpa using h2) h4

theorem stream_words_of_read_word_none (s : Str) (h : read_word s = none) :
    stream_words s [] = [] := by
  simpa using stream_words_spaces s [] (read_word_eq_none s h)

theorem span_append_stop (p : Char → Bool) (x r2 : Str)
    (h : ∀ c, r2.head? = some c → p c = false) :
    (x ++ r2).takeWhile p = x.takeWhile p ∧ (x ++ r2).dropWhile p = x.dropWhile p ++ r2 := by
  induction x with
  | nil =>
    cases r2 with
    | nil => simp
    | cons c cs =>
      have hc : p c = false := h c rfl
      simp [hc]
  | cons a as ih =>
    by_cases ha : p a = true
    · simp [ha, ih]
    · simp [ha]

theorem read_int_dropWhile (s : Str) : read_int s = read_int (s.dropWhile isspace) := by
  have hidem : (s.dropWhile isspace).dropWhile isspace = s.dropWhile isspace := by
    cases hd : s.dropWhile isspace with
    | nil => rfl
    | cons c cs =>
      have hc := dropWhile_head isspace s c cs hd
      simp [hc]
  unfold read_int
  rw [hidem]

theorem read_int_eq (s : Str) :
    read_int s =
      match s.dropWhile isspace with
      | [] => none
      | c :: cs =>
        if c = Char.ofNat 45 then read_digits true cs
        else if c = Char.ofNat 43 then read_digits false cs
        else read_digits false (c :: cs) := by
  unfold read_int read_digits
  cases s.dropWhile isspace with
  | nil => simp
  | cons c cs =>
    by_cases hm : c = Char.ofNat 45
    · simp [hm]
    · by_cases hp : c = Char.ofNat 43
      · have h43 : ¬ Char.ofNat 43 = Char.ofNat 45 := by decide
        simp [hp, h43]
      · simp [hm, hp]

theorem read_digits_append (neg : Bool) (x r2 : Str)
    (h : ∀ c, r2.head? = some c → isdigit c = false) :
    read_digits neg (x ++ r2) = (read_digits neg x).map (fun p => (p.1, p.2 ++ r2)) := by
  obtain ⟨e1, e2⟩ := span_append_stop isdigit x r2 h
  unfold read_digits
  rw [e1, e2]
  split_ifs <;> simp

theorem read_digits_suffix (neg : Bool) (r1 : Str) (k : Int) (r' : Str)
    (h : read_digits neg r1 = some (k, r')) : r' <:+ r1 := by
  unfold read_digits at h
  by_cases h0 : r1.takeWhile isdigit = []
  · rw [if_pos h0] at h
    cases h
  · rw [if_neg h0] at h
    have aux : ∀ (C : Prop) [Decidable C] (v : Int) (d : Str),
        (if C then some (v, d) else none) = some (k, r') → r' = d := by
      intro C _ v d hh
      by_cases hC : C
      · rw [if_pos hC] at hh
        simp only [Option.some.injEq, Prod.mk.injEq] at hh
        exact hh.2.symm
      · rw [if_neg hC] at hh
        cases hh
    rw [aux _ _ _ h]
    exact List.dropWhile_suffix isdigit

theorem read_int_token (t r2 : Str) (hne : t ≠ []) (ht : ∀ c ∈ t, isspace c = false)
    (hr : ∀ c, r2.head? = some c → isspace c = true) :
    read_int (t ++ r2) = (read_int t).map (fun p => (p.1, p.2 ++ r2)) := by
  obtain ⟨c, cs, rfl⟩ := List.exists_cons_of_ne_nil hne
  have hc : isspace c = false := ht c (List.mem_cons_self _ _)
  have hd : ∀ x, r2.head? = some x → isdigit x = false :=
    fun x hx => isspace_not_digit x (hr x hx)
  have h1 : (c :: cs ++ r2).dropWhile isspace = c :: (cs ++ r2) := by simp [hc]
  have h2 : (c :: cs).dropWhile isspace = c :: cs := by simp [hc]
  rw [read_int_eq, read_int_eq, h1, h2]
  simp only
  have e := read_digits_append false (c :: cs) r2 hd
  rw [List.cons_append] at e
  split_ifs
  · exact read_digits_append true cs r2 hd
  · exact read_digits_append false cs r2 hd
  · exact e

theorem read_int_spaces (r : Str) (h : ∀ c ∈ r, isspace c = true) : read_int r = none := by
  rw [read_int_eq, List.dropWhile_eq_nil_iff.2 h]

theorem read_word_suffix (s w r : Str) (h : read_word s = some (w, r)) :
    r <:+ s ∧ r.length < s.length := by
  obtain ⟨h1, h2, _, _⟩ := read_word_eq_some s w r h
  have hs : w ++ r <:+ s := h1 ▸ List.dropWhile_suffix isspace
  have hl := hs.length_le
  have hw : 0 < w.length := List.length_pos.2 h2
  rw [List.length_append] at hl
  exact ⟨(List.suffix_append w r).trans hs, by omega⟩

theorem read_int_suffix (r : Str) (k : Int) (r' : Str) (h : read_int r = some (k, r')) :
    r' <:+ r := by
  have h0 : r.dropWhile isspace <:+ r := List.dropWhile_suffix isspace
  rw [read_int_eq] at h
  cases hd : r.dropWhile isspace with
  | nil => rw [hd] at h; cases h
  | cons c cs =>
    rw [hd] at h h0
    have hcs : cs <:+ r := (List.suffix_cons c cs).trans h0
    simp only at h
    split_ifs at h
    · exact (read_digits_suffix _ _ _ _ h).trans hcs
    · exact (read_digits_suffix _ _ _ _ h).trans hcs
    · exact (read_digits_suffix _ _ _ _ h).trans h0

/-- The bound of the reduction loop is never what ends it: any two bounds above the
length of the stream give the same table. -/
theorem reduce_loop_fuel (f1 f2 : Nat) (s : Str) (g : WordCountMap)
    (h1 : s.length < f1) (h2 : s.length < f2) : reduce_loop f1 s g = reduce_loop f2 s g := by
  induction f1 generalizing f2 s g with
  | zero => omega
  | succ f1 ih =>
    obtain ⟨f2, rfl⟩ : ∃ f, f2 = f + 1 := ⟨f2 - 1, by omega⟩
    cases hw : read_word s with
    | none => simp only [reduce_loop, hw]
    | some p =>
      obtain ⟨w, r⟩ := p
      cases hi : read_int r with
      | none => simp only [reduce_loop, hw, hi]
      | some q =>
        obtain ⟨k, r'⟩ := q
        have hl1 := (read_word_suffix s w r hw).2
        have hl2 := (read_int_suffix r k r' hi).length_le
        simp only [reduce_loop, hw, hi]
        exact ih f2 r' _ (by omega) (by omega)

theorem read_word_run (ws w r : Str) (hws : ∀ x ∈ ws, isspace x = true) (hne : w ≠ [])
    (hw : ∀ c ∈ w, isspace c = false) (hr : ∀ c, r.head? = some c → isspace c = true) :
    read_word (ws ++ (w ++ r)) = some (w, r) := by
  obtain ⟨a, as, rfl⟩ := List.exists_cons_of_ne_nil hne
  have ha : isspace a = false := hw a (List.mem_cons_self _ _)
  have h1 : (ws ++ (a :: as ++ r)).dropWhile isspace = a :: (as ++ r) := by
    rw [List.cons_append]
    exact dropWhile_run isspace ws a _ hws ha
  have hr' : ∀ c, r.head? = some c → (fun x => !isspace x) c = false := by
    intro c hc
    simp [hr c hc]
  obtain ⟨e1, e2⟩ := span_append_stop (fun x => !isspace x) (a :: as) r hr'
  have hall : ∀ x ∈ a :: as, (fun x => !isspace x) x = true := by
    intro x hx
    simp [hw x hx]
  rw [List.takeWhile_eq_self_iff.2 hall] at e1
  rw [List.dropWhile_eq_nil_iff.2 hall, List.nil_append] at e2
  unfold read_word
  rw [h1]
  simp only [← List.cons_append]
  rw [e1, e2]

theorem read_digits_run (neg : Bool) (ds rest : Str) (hne : ds ≠ [])
    (hds : ∀ x ∈ ds, isdigit x = true) (hr : ∀ c, rest.head? = some c → isdigit c = false) :
    read_digits neg (ds ++ rest) =
      if INT_MIN ≤ (if neg then -(digits_value ds : Int) else (digits_value ds : Int)) ∧
          (if neg then -(digits_value ds : Int) else (digits_value ds : Int)) ≤ INT_MAX
      then some ((if neg then -(digits_value ds : Int) else (digits_value ds : Int)), rest)
      else none := by
  obtain ⟨e1, e2⟩ := span_append_stop isdigit ds rest hr
  rw [List.takeWhile_eq_self_iff.2 hds] at e1
  rw [List.dropWhile_eq_nil_iff.2 hds, List.nil_append] at e2
  unfold read_digits
  rw [e1, e2, if_neg hne]

theorem read_digits_none (neg : Bool) (rest : Str)
    (hr : ∀ c, rest.head? = some c → isdigit c = false) : read_digits neg rest = none := by
  have h : rest.takeWhile isdigit = [] := by
    cases rest with
    | nil => rfl
    | cons c cs => simp [hr c rfl]
  unfold read_digits
  rw [if_pos h]

/-- What the extraction of an `int` reads: after white space, a sign or none, then
at least one decimal digit, up to the first character that is not a digit; it fails
when the value is not an `int`. -/
theorem read_int_run (ws sign ds rest : Str) (hws : ∀ x ∈ ws, isspace x = true)
    (hsign : is_sign sign) (hne : ds ≠ []) (hds : ∀ x ∈ ds, isdigit x = true)
    (hr : ∀ c, rest.head? = some c → isdigit c = false) :
    read_int (ws ++ (sign ++ (ds ++ rest))) =
      if INT_MIN ≤ (if sign = [Char.ofNat 45] then -(digits_value ds : Int)
            else (digits_value ds : Int)) ∧
          (if sign = [Char.ofNat 45] then -(digits_value ds : Int)
            else (digits_value ds : Int)) ≤ INT_MAX
      then some ((if sign = [Char.ofNat 45] then -(digits_value ds : Int)
            else (digits_value ds : Int)), rest)
      else none := by
  have h43 : ¬ Char.ofNat 43 = Char.ofNat 45 := by decide
  have hs43 : isspace (Char.ofNat 43) = false := by decide
  have hs45 : isspace (Char.ofNat 45) = false := by decide
  rw [read_int_eq]
  rcases hsign with h | h | h
  · subst h
    obtain ⟨d, ds', rfl⟩ := List.exists_cons_of_ne_nil hne
    have hd : isdigit d = true := hds d (List.mem_cons_self _ _)
    obtain ⟨hm, hp⟩ := isdigit_ne_sign d hd
    have h1 : (ws ++ ([] ++ (d :: ds' ++ rest))).dropWhile isspace = d :: (ds' ++ rest) := by
      rw [List.nil_append, List.cons_append]
      exact dropWhile_run isspace ws d _ hws (isdigit_not_space d hd)
    rw [h1]
    simp only [if_neg hm, if_neg hp]
    have h2 := read_digits_run false (d :: ds') rest hne hds hr
    rw [List.cons_append] at h2
    rw [h2]
    simp
  · subst h
    have h1 : (ws ++ ([Char.ofNat 43] ++ (ds ++ rest))).dropWhile isspace
        = Char.ofNat 43 :: (ds ++ rest) := by
      rw [List.singleton_append]
      exact dropWhile_run isspace ws _ _ hws hs43
    rw [h1]
    simp only [if_neg h43, if_pos rfl]
    rw [read_digits_run false ds rest hne hds hr]
    simp [h43]
  · subst h
    have h1 : (ws ++ ([Char.ofNat 45] ++ (ds ++ rest))).dropWhile isspace
        = Char.ofNat 45 :: (ds ++ rest) := by
      rw [List.singleton_append]
      exact dropWhile_run isspace ws _ _ hws hs45
    rw [h1]
    simp only [if_pos rfl]
    rw [read_digits_run true ds rest hne hds hr]
    simp

/-- The extraction of an `int` fails when, after white space and a sign or none, no
decimal digit follows. -/
theorem read_int_no_digit (ws sign rest : Str) (hws : ∀ x ∈ ws, isspace x = true)
    (hsign : is_sign sign) (hr : ∀ c, rest.head? = some c → isdigit c = false)
    (hplain : sign = [] → ∀ c, rest.head? = some c →
      isspace c = false ∧ c ≠ Char.ofNat 43 ∧ c ≠ Char.ofNat 45) :
    read_int (ws ++ (sign ++ rest)) = none := by
  have h43 : ¬ Char.ofNat 43 = Char.ofNat 45 := by decide
  have hs43 : isspace (Char.ofNat 43) = false := by decide
  have hs45 : isspace (Char.ofNat 45) = false := by decide
  rw [read_int_eq]
  rcases hsign with h | h | h
  · subst h
    cases rest with
    | nil =>
      rw [List.nil_append, List.append_nil, List.dropWhile_eq_nil_iff.2 hws]
    | cons c cs =>
      obtain ⟨hc1, hc2, hc3⟩ := hplain rfl c rfl
      have h1 : (ws ++ ([] ++ c :: cs)).dropWhile isspace = c :: cs := by
        rw [List.nil_append]
        exact dropWhile_run isspace ws c _ hws hc1
      rw [h1]
      simp only [if_neg hc3, if_neg hc2]
      exact read_digits_none false (c :: cs) hr
  · subst h
    have h1 : (ws ++ ([Char.ofNat 43] ++ rest)).dropWhile isspace = Char.ofNat 43 :: rest := by
      rw [List.singleton_append]
      exact dropWhile_run isspace ws _ _ hws hs43
    rw [h1]
    simp only [if_neg h43, if_pos rfl]
    exact read_digits_none false rest hr
  · subst h
    have h1 : (ws ++ ([Char.ofNat 45] ++ rest)).dropWhile isspace = Char.ofNat 45 :: rest := by
      rw [List.singleton_append]
      exact dropWhile_run isspace ws _ _ hws hs45
    rw [h1]
    simp only [if_pos rfl]
    exact read_digits_none true rest hr

/-- The reduction loop reads the tokens in pairs when every token it reads in a count
position is an integer as a whole or does not start with an integer. -/
theorem reduce_loop_eq_reduce_tokens (fuel : Nat) (s : Str) (g : WordCountMap)
    (hf : s.length < fuel) (ht : counts_delimited (stream_words s []) = true) :
    reduce_loop fuel s g = reduce_tokens (stream_words s []) g := by
  induction fuel generalizing s g with
  | zero => omega
  | succ fuel ih =>
    cases hw : read_word s with
    | none => simp only [reduce_loop, hw, stream_words_of_read_word_none s hw, reduce_tokens]
    | some p =>
      obtain ⟨w, r⟩ := p
      have hs := stream_words_of_read_word s w r hw
      have hl1 := (read_word_suffix s w r hw).2
      cases hw2 : read_word r with
      | none =>
        have hi := read_int_spaces r (read_word_eq_none r hw2)
        simp only [reduce_loop, hw, hi, hs, stream_words_of_read_word_none r hw2, reduce_tokens]
      | some p2 =>
        obtain ⟨t, r2⟩ := p2
        have hs2 := stream_words_of_read_word r t r2 hw2
        have hl2 := (read_word_suffix r t r2 hw2).2
        obtain ⟨e1, e2, e3, e4⟩ := read_word_eq_some r t r2 hw2
        have hi : read_int r = (read_int t).map (fun p => (p.1, p.2 ++ r2)) := by
          rw [read_int_dropWhile, e1]
          exact read_int_token t r2 e2 e3 e4
        rw [hs, hs2] at ht
        simp only [counts_delimited, Bool.and_eq_true] at ht
        obtain ⟨hwt, htail⟩ := ht
        unfold whole_or_none at hwt
        cases hrt : read_int t with
        | none =>
          rw [hrt] at hi
          simp only [reduce_loop, hw, hi, hs, hs2, reduce_tokens, int_token, hrt, Option.map_none']
        | some q =>
          obtain ⟨k, rest⟩ := q
          rw [hrt] at hwt hi
          have hrest : rest = [] := by simpa [List.isEmpty_iff] using hwt
          subst hrest
          simp only [int_token, hrt] at htail
          simp only [Option.map_some', List.nil_append] at hi
          simp only [reduce_loop, hw, hi, hs, hs2, reduce_tokens, int_token, hrt]
          exact ih r2 _ (by omega) htail

/-! ## Large inputs -/

theorem occurrences_replicate (n : Nat) : occurrences ['a'] (List.replicate n ['a']) = n := by
  have ht : tokenize ['a'] = [['a']] := by decide
  induction n with
  | zero => rfl
  | succ n ih =>
    unfold occurrences all_tokens at ih ⊢
    rw [List.replicate_succ, List.flatMap_cons, ht, List.singleton_append, List.countP_cons, ih]
    simp

theorem read_int_print_run (ws : Str) (k : Int) (rest : Str)
    (hws : ∀ x ∈ ws, isspace x = true) (hk : in_int_range k)
    (hr : ∀ c, rest.head? = some c → isdigit c = false) :
    read_int (ws ++ (print_int k ++ rest)) = some (k, rest) := by
  unfold print_int
  by_cases hneg : k < 0
  · obtain ⟨h1, h2, h3⟩ := dec_digits_spec (-k).toNat
    have hv : -((digits_value (dec_digits (-k).toNat) : Nat) : Int) = k := by
      rw [h3]
      omega
    have h := read_int_run ws [Char.ofNat 45] (dec_digits (-k).toNat) rest hws
      (Or.inr (Or.inr rfl)) h1 h2 hr
    rw [if_pos hneg, List.cons_append]
    rw [List.singleton_append] at h
    obtain ⟨hk1, hk2⟩ := hk
    rw [h]
    simp [hv, hk1, hk2]
  · obtain ⟨h1, h2, h3⟩ := dec_digits_spec k.toNat
    have hv : ((digits_value (dec_digits k.toNat) : Nat) : Int) = k := by
      rw [h3]
      omega
    have h := read_int_run ws [] (dec_digits k.toNat) rest hws (Or.inl rfl) h1 h2 hr
    rw [if_neg hneg]
    rw [List.nil_append] at h
    obtain ⟨hk1, hk2⟩ := hk
    rw [h]
    simp [hv, hk1, hk2]

/-! # The claims -/

/-- C1 on the code. On the scenario lines the ranges of two participants are
`(0, 2)` and `(2, 1)` and the global table is the table of the single-participant run.
On `zero_byte_lines` with two participants the second participant receives the line
`b\0c` cut at the zero byte: the global table has no entry for the word `b\0c`, which
occurs once, and an entry for `b`, which never occurs; the single-participant run on
the same lines counts `b\0c`. -/
theorem global_table_zero_byte :
    (part_start 3 2 0, part_count 3 2 0) = (0, 2) ∧
    (part_start 3 2 1, part_count 3 2 1) = (2, 1) ∧
    global_map 2 scenario_lines (one_thread 2 scenario_lines)
      = global_map 1 scenario_lines (one_thread 1 scenario_lines) ∧
    global_map 1 scenario_lines (one_thread 1 scenario_lines) = scenario_table ∧
    local_lines 2 zero_byte_lines 1 = ["b".toList] ∧
    global_map 1 zero_byte_lines (one_thread 1 zero_byte_lines)
      = [("a".toList, 1), (['b', NUL, 'c'], 1)] ∧
    global_map 2 zero_byte_lines (one_thread 2 zero_byte_lines)
      = [("a".toList, 1), ("b".toList, 1)] ∧
    occurrences ['b', NUL, 'c'] zero_byte_lines = 1 ∧
    find (global_map 2 zero_byte_lines (one_thread 2 zero_byte_lines)) ['b', NUL, 'c'] = none ∧
    occurrences "b".toList zero_byte_lines = 0 ∧
    find (global_map 2 zero_byte_lines (one_thread 2 zero_byte_lines)) "b".toList = some 1 := by
  decide

/-- C2. Partition completeness: for every `N` and `P ≥ 1` the ranges
`[start_i, start_i + count_i)` are contiguous and gapless (`start_0 = 0`,
`start_{i+1} = start_i + count_i`, the last range ends at `N`), every line index
below `N` lies in exactly one range, and the counts sum to `N`. -/
theorem partition_completeness (N P : Nat) (hP : 1 ≤ P) :
    part_start N P 0 = 0 ∧
    (∀ i, i + 1 < P → part_start N P (i + 1) = part_start N P i + part_count N P i) ∧
    part_start N P (P - 1) + part_count N P (P - 1) = N ∧
    (∀ j, j < N → ∃! i, i < P ∧ part_start N P i ≤ j ∧ j < part_start N P i + part_count N P i) ∧
    ((List.range P).map (part_count N P)).sum = N := by
  refine ⟨part_start_zero N P, fun i _ => part_start_succ N P i, ?_, ?_, ?_⟩
  · rw [← part_start_succ, Nat.sub_add_cancel hP, part_start_total N P hP]
  · intro j hj
    rw [← part_start_total N P hP] at hj
    obtain ⟨i, hi, h1, h2⟩ := part_owner_exists N P j P hj
    exact ⟨i, ⟨hi, h1, h2⟩, fun i' h' => part_owner_unique N P j i' i h'.2.1 h'.2.2 h1 h2⟩
  · rw [part_count_sum, part_start_total N P hP]

/-- Witness of C2: seven lines among three participants. -/
theorem partition_completeness_witness :
    1 ≤ 3 ∧
    (part_start 7 3 0 = 0 ∧
    (∀ i, i + 1 < 3 → part_start 7 3 (i + 1) = part_start 7 3 i + part_count 7 3 i) ∧
    part_start 7 3 (3 - 1) + part_count 7 3 (3 - 1) = 7 ∧
    (∀ j, j < 7 → ∃! i, i < 3 ∧ part_start 7 3 i ≤ j ∧ j < part_start 7 3 i + part_count 7 3 i) ∧
    ((List.range 3).map (part_count 7 3)).sum = 7) :=
  ⟨by decide, partition_completeness 7 3 (by decide)⟩

/-- C3, as stated, fails: the counts of the table are `int` values. On `2^31` lines `a`
the word `a` occurs `2^31` times, and the count `count_words` stores under it is the
`int` its increments arrive at, `-2^31`: not the number of occurrences, and not at
least one. -/
theorem count_words_reference_counterexample :
    occurrences ['a'] (List.replicate 2147483648 ['a']) = 2147483648 ∧
    find (count_words (List.replicate 2147483648 ['a'])) ['a'] = some (-2147483648) ∧
    ¬ (∀ w c, (w, c) ∈ count_words (List.replicate 2147483648 ['a']) →
        1 ≤ c ∧ c = (occurrences w (List.replicate 2147483648 ['a']) : Int)) := by
  have hocc := occurrences_replicate 2147483648
  have hfind : find (count_words (List.replicate 2147483648 ['a'])) ['a']
      = some (-2147483648) := by
    unfold count_words
    rw [find_count_words_sched _ _ (validSched_one_thread _) ['a'], hocc]
    decide
  refine ⟨hocc, hfind, fun hall => ?_⟩
  have h := (hall _ _ (find_mem _ _ _ hfind)).1
  omega

/-- C3, amended. Local counter reference semantics: when no word occurs more often
than the largest `int`, under every valid schedule of the threads `count_words`
returns a table with unique keys that stores under each word its number of
occurrences among the tokens of the lines, has no entry for a word that does not
occur, and stores only counts of at least one; on the scenario lines the table is
`{the:2, cat:3, sat:2, a:2, on:1, mat:1}`. -/
theorem count_words_reference (lines : List Str) (sched : List (List Nat))
    (h : ValidSched lines.length sched)
    (hr : ∀ w, (occurrences w lines : Int) ≤ INT_MAX) :
    (∀ w, find (count_words_sched lines sched) w =
      if occurrences w lines = 0 then none else some (occurrences w lines : Int)) ∧
    WF (count_words_sched lines sched) ∧
    (∀ w c, (w, c) ∈ count_words_sched lines sched → 1 ≤ c ∧ c = (occurrences w lines : Int)) ∧
    (lines = scenario_lines → TableEq (count_words_sched lines sched) scenario_table) ∧
    count_words scenario_lines = scenario_table := by
  have hf : ∀ w, find (count_words_sched lines sched) w =
      if occurrences w lines = 0 then none else some (occurrences w lines : Int) := by
    intro w
    rw [find_count_words_sched lines sched h w]
    exact spec_find_of_le _ (hr w)
  have hwf := WF_count_words_sched lines sched
  have hsc : count_words scenario_lines = scenario_table := by decide
  refine ⟨hf, hwf, ?_, ?_, hsc⟩
  · intro w c hmem
    have h1 := find_of_mem _ hwf w c hmem
    rw [hf w] at h1
    split_ifs at h1 with h0
    simp only [Option.some.injEq] at h1
    omega
  · intro hs w
    subst hs
    have h1 := find_count_words_sched scenario_lines [List.range scenario_lines.length]
      (validSched_one_thread _) w
    rw [find_count_words_sched scenario_lines sched h w, ← h1, ← hsc]
    rfl

/-- Witness of C3: the scenario lines, the first thread given lines 2 and 0 and the
second thread line 1. -/
theorem count_words_reference_witness :
    ValidSched scenario_lines.length [[2, 0], [1]] ∧
    (∀ w, (occurrences w scenario_lines : Int) ≤ INT_MAX) ∧
    TableEq (count_words_sched scenario_lines [[2, 0], [1]]) scenario_table :=
  have hv : ValidSched scenario_lines.length [[2, 0], [1]] := by
    show List.Perm [2, 0, 1] [0, 1, 2]
    decide
  have hr : ∀ w, (occurrences w scenario_lines : Int) ≤ INT_MAX := by
    intro w
    have h1 : occurrences w scenario_lines ≤ (all_tokens scenario_lines).length :=
      List.countP_le_length _
    have h2 : (all_tokens scenario_lines).length = 11 := by decide
    unfold INT_MAX
    omega
  ⟨hv, hr, (count_words_reference scenario_lines [[2, 0], [1]] hv hr).2.2.2.1 rfl⟩

/-- C4 on the code. On `zero_byte_tail_lines` the input has four tokens; the
single-participant run stores counts that sum to four, the run with two participants
stores counts that sum to two, because the second participant receives its line cut
at the zero byte. -/
theorem count_conservation_zero_byte :
    (all_tokens zero_byte_tail_lines).length = 4 ∧
    total_count (global_map 1 zero_byte_tail_lines (one_thread 1 zero_byte_tail_lines)) = 4 ∧
    local_lines 2 zero_byte_tail_lines 1 = ["b".toList] ∧
    total_count (global_map 2 zero_byte_tail_lines (one_thread 2 zero_byte_tail_lines)) = 2 := by
  decide

/-- C5. Commutativity of the reduction: `merge_maps` is commutative and associative
up to table equality and does not depend on the iteration order of the merged table;
so `count_words` returns the same table under any two valid schedules (shard
assignment and merge order), and folding the partial tables into the global table
gives the same table for every permutation of the partial tables. -/
theorem reduction_commutative :
    (∀ a b, WF a → WF b → TableEq (merge_maps a b) (merge_maps b a)) ∧
    (∀ a b c, WF a → WF b → WF c →
      TableEq (merge_maps (merge_maps a b) c) (merge_maps a (merge_maps b c))) ∧
    (∀ a b b', b.Perm b' → TableEq (merge_maps a b) (merge_maps a b')) ∧
    (∀ lines s1 s2, ValidSched lines.length s1 → ValidSched lines.length s2 →
      TableEq (count_words_sched lines s1) (count_words_sched lines s2)) ∧
    (∀ (g : WordCountMap) (ts ts' : List WordCountMap), ts.Perm ts' →
      TableEq (ts.foldl merge_maps g) (ts'.foldl merge_maps g)) := by
  refine ⟨merge_maps_comm, fun a b c _ hb hc => merge_maps_assoc a b c hb hc, merge_maps_perm,
    ?_, fun g ts ts' h => foldl_merge_perm ts ts' h g⟩
  intro lines s1 s2 h1 h2 w
  rw [find_count_words_sched lines s1 h1, find_count_words_sched lines s2 h2]

/-- Witness of C5: two tables merged both ways, and the scenario lines counted by one
thread and by two threads. -/
theorem reduction_commutative_witness :
    TableEq (merge_maps [("a".toList, 1), ("b".toList, 2)] [("b".toList, 5), ("c".toList, 1)])
      (merge_maps [("b".toList, 5), ("c".toList, 1)] [("a".toList, 1), ("b".toList, 2)]) ∧
    TableEq (count_words_sched scenario_lines [[0, 1, 2]])
      (count_words_sched scenario_lines [[2, 0], [1]]) :=
  ⟨reduction_commutative.1 _ _ (by decide) (by decide),
   reduction_commutative.2.2.2.1 scenario_lines [[0, 1, 2]] [[2, 0], [1]]
    (by show List.Perm [0, 1, 2] [0, 1, 2]; decide) (by show List.Perm [2, 0, 1] [0, 1, 2]; decide)⟩

/-- C6. Line-block round trip: when no line contains a line break, splitting the
serialized block gives back the same lines, in the same order and number, empty
lines included; the empty sequence serializes to the empty payload, and the empty
payload splits into the empty sequence, not into one empty line. -/
theorem line_block_round_trip (lines : List Str) (h : ∀ l ∈ lines, NL ∉ l) :
    split_lines (serialize_lines lines) = lines ∧
    (split_lines (serialize_lines lines)).length = lines.length ∧
    serialize_lines [] = [] ∧ split_lines [] = [] ∧ split_lines [] ≠ [[]] := by
  have h1 := split_serialize lines h
  refine ⟨h1, by rw [h1], rfl, rfl, by decide⟩

/-- Witness of C6: a block with empty lines at both ends. -/
theorem line_block_round_trip_witness :
    (∀ l ∈ ([[], "a b".toList, [], []] : List Str), NL ∉ l) ∧
    split_lines (serialize_lines [[], "a b".toList, [], []]) = [[], "a b".toList, [], []] :=
  have hl : ∀ l ∈ ([[], "a b".toList, [], []] : List Str), NL ∉ l := by decide
  ⟨hl, (line_block_round_trip [[], "a b".toList, [], []] hl).1⟩

/-- C8. Partition balance: the participants below `extra` get `base + 1` lines, the
others get `base` lines; so two counts differ by at most one and the counts do not
increase with the index. -/
theorem partition_balance (N P : Nat) (_hP : 1 ≤ P) :
    (∀ i, i < extra N P → part_count N P i = base N P + 1) ∧
    (∀ i, extra N P ≤ i → i < P → part_count N P i = base N P) ∧
    (∀ i j, i < P → j < P → part_count N P i ≤ part_count N P j + 1) ∧
    (∀ i j, i ≤ j → j < P → part_count N P j ≤ part_count N P i) := by
  refine ⟨?_, ?_, ?_, ?_⟩
  · intro i hi
    simp [part_count, hi]
  · intro i hi _
    simp [part_count, Nat.not_lt.2 hi]
  · intro i j _ _
    unfold part_count
    split_ifs <;> omega
  · intro i j hij _
    unfold part_count
    split_ifs <;> omega

/-- Witness of C8: seven lines among three participants. -/
theorem partition_balance_witness :
    1 ≤ 3 ∧
    ((∀ i, i < extra 7 3 → part_count 7 3 i = base 7 3 + 1) ∧
    (∀ i, extra 7 3 ≤ i → i < 3 → part_count 7 3 i = base 7 3) ∧
    (∀ i j, i < 3 → j < 3 → part_count 7 3 i ≤ part_count 7 3 j + 1) ∧
    (∀ i j, i ≤ j → j < 3 → part_count 7 3 j ≤ part_count 7 3 i)) :=
  ⟨by decide, partition_balance 7 3 (by decide)⟩

/-- C9. Empty input: with no line and `P ≥ 1` participants, every range is empty,
every line block and its payload are empty, every local table and its encoding are
empty, every reduction round leaves the global table as it is, and the global table
is empty. -/
theorem empty_input (P : Nat) (_hP : 1 ≤ P) (sched : Nat → List (List Nat)) :
    (∀ i, i < P →
      part_count 0 P i = 0 ∧
      serialize_lines (block P [] i) = [] ∧
      received (serialize_lines (block P [] i)) = [] ∧
      local_lines P [] i = [] ∧
      local_map P [] sched i = [] ∧
      encode_table (local_map P [] sched i) = [] ∧
      ∀ g, reduce_payload g (encode_table (local_map P [] sched i)) = g) ∧
    global_map P [] sched = [] := by
  have hc : ∀ i, part_count ([] : List Str).length P i = 0 := by
    intro i
    simp [part_count, extra, base]
  have hl : ∀ i, block P [] i = [] ∧ local_lines P [] i = [] :=
    fun i => ⟨block_nil P i, local_lines_of_block_nil P [] i (block_nil P i)⟩
  have hm : ∀ i, local_map P [] sched i = [] := by
    intro i
    unfold local_map
    rw [(hl i).2]
    exact count_words_sched_nil _
  refine ⟨fun i _ => ⟨hc i, ?_, ?_, (hl i).2, hm i, ?_, ?_⟩, ?_⟩
  · rw [(hl i).1]
    rfl
  · rw [(hl i).1]
    exact received_nil
  · simp [hm i, encode_table]
  · intro g
    simp [hm i, encode_table, reduce_payload_nil]
  · unfold global_map
    simp only [hm, encode_table, reduce_payload_nil]
    induction (List.range' 1 (P - 1)) with
    | nil => rfl
    | cons _ _ ih => simp

/-- Witness of C9: four participants, each running one thread. -/
theorem empty_input_witness :
    1 ≤ 4 ∧
    ((∀ i, i < 4 →
      part_count 0 4 i = 0 ∧
      serialize_lines (block 4 [] i) = [] ∧
      received (serialize_lines (block 4 [] i)) = [] ∧
      local_lines 4 [] i = [] ∧
      local_map 4 [] (one_thread 4 []) i = [] ∧
      encode_table (local_map 4 [] (one_thread 4 []) i) = [] ∧
      ∀ g, reduce_payload g (encode_table (local_map 4 [] (one_thread 4 []) i)) = g) ∧
    global_map 4 [] (one_thread 4 []) = []) :=
  ⟨by decide, empty_input 4 (by decide) (one_thread 4 [])⟩

/-- C10. More participants than lines: when `N < P`, participant `i < N` gets the
single line `i`, every participant `i` with `N ≤ i < P` gets an empty range, its line
block is empty, the lines it materializes are empty and `count_words` returns the
empty table on them under every schedule. -/
theorem more_participants_than_lines (N P : Nat) (h : N < P) :
    (∀ i, i < N → part_start N P i = i ∧ part_count N P i = 1) ∧
    (∀ i, N ≤ i → i < P → part_count N P i = 0) ∧
    (∀ (all_lines : List Str) (i : Nat), all_lines.length = N → N ≤ i → i < P →
      block P all_lines i = [] ∧ local_lines P all_lines i = [] ∧
      ∀ sched, count_words_sched (local_lines P all_lines i) sched = []) := by
  obtain ⟨hb, he⟩ := part_small N P h
  have h0 : ∀ i, N ≤ i → part_count N P i = 0 := by
    intro i hi
    simp [part_count, hb, he, Nat.not_lt.2 hi]
  refine ⟨?_, fun i hi _ => h0 i hi, ?_⟩
  · intro i hi
    simp [part_start, part_count, hb, he, hi, Nat.min_eq_left (Nat.le_of_lt hi)]
  · intro all_lines i hlen hi _
    have h1 : block P all_lines i = [] :=
      block_of_small P all_lines i (by omega) (by omega)
    have h2 := local_lines_of_block_nil P all_lines i h1
    exact ⟨h1, h2, fun sched => by rw [h2]; exact count_words_sched_nil sched⟩

/-- Witness of C10: two lines, five participants. -/
theorem more_participants_than_lines_witness :
    2 < 5 ∧
    ((∀ i, i < 2 → part_start 2 5 i = i ∧ part_count 2 5 i = 1) ∧
    (∀ i, 2 ≤ i → i < 5 → part_count 2 5 i = 0) ∧
    (∀ (all_lines : List Str) (i : Nat), all_lines.length = 2 → 2 ≤ i → i < 5 →
      block 5 all_lines i = [] ∧ local_lines 5 all_lines i = [] ∧
      ∀ sched, count_words_sched (local_lines 5 all_lines i) sched = [])) :=
  ⟨by decide, more_participants_than_lines 2 5 (by decide)⟩

/-- C11. Line-block wire format: `serialize_lines` is the concatenation, in order, of
every line followed by one line break, the last line included; its length is the sum
of the line lengths plus the number of lines; and the length the coordinator sends
before the payload is that length whenever it is at most the largest `int`. -/
theorem line_block_wire_format (lines : List Str) :
    serialize_lines lines = lines.flatMap (fun line => line ++ [NL]) ∧
    (serialize_lines lines).length = (lines.map List.length).sum + lines.length ∧
    (((serialize_lines lines).length : Int) ≤ INT_MAX →
      sent_len lines = ((serialize_lines lines).length : Int)) :=
  ⟨serialize_lines_eq_flatMap lines, length_serialize_lines lines,
    fun h => to_int_of_le _ h⟩

/-- Witness of C11: the block of the scenario lines is 42 bytes long and is sent with
the length 42. -/
theorem line_block_wire_format_witness :
    ((serialize_lines scenario_lines).length : Int) ≤ INT_MAX ∧
    (serialize_lines scenario_lines).length = 42 ∧
    sent_len scenario_lines = 42 :=
  have h : ((serialize_lines scenario_lines).length : Int) ≤ INT_MAX := by decide
  ⟨h, by decide, (line_block_wire_format scenario_lines).2.2 h⟩

/-- C13 on the code. On `zero_byte_block_lines` with two participants the block of
participant 1 is the two lines `c\0d` and `e`; its payload has six bytes; the string
built from the zero-terminated receive buffer is `c`, and participant 1 materializes
the single line `c` instead of its block. -/
theorem distributor_zero_byte :
    (part_start 4 2 1, part_count 4 2 1) = (2, 2) ∧
    block 2 zero_byte_block_lines 1 = [['c', NUL, 'd'], "e".toList] ∧
    serialize_lines (block 2 zero_byte_block_lines 1) = ['c', NUL, 'd', NL, 'e', NL] ∧
    sent_len (block 2 zero_byte_block_lines 1) = 6 ∧
    received (serialize_lines (block 2 zero_byte_block_lines 1)) = "c".toList ∧
    local_lines 2 zero_byte_block_lines 1 = ["c".toList] ∧
    local_lines 2 zero_byte_block_lines 1 ≠ block 2 zero_byte_block_lines 1 := by
  decide

/-- C14, as stated, fails. In the payload `a 12b 5` the token after the word `a` is
`12b`, which is not an integer: read as pairs of tokens the payload adds nothing, but
the parser extracts the count 12, goes on with the word `b` and the count 5. -/
theorem reduction_parser_counterexample :
    stream_words "a 12b 5".toList [] = ["a".toList, "12b".toList, "5".toList] ∧
    int_token "12b".toList = none ∧
    reduce_tokens (stream_words "a 12b 5".toList []) [] = [] ∧
    read_int " 12b 5".toList = some (12, "b 5".toList) ∧
    reduce_payload [] "a 12b 5".toList = [("a".toList, 12), ("b".toList, 5)] := by
  decide

/-- C14, amended. The reduction parser on the text its stream holds.
The loop is ended by a failed extraction, never by its bound.
A word is what `>> word` extracts: after white space, the characters up to the next
white space, at least one; there is no word when only white space is left.
A count is what `>> count` extracts after the word: after white space, a sign or none
and then the decimal digits up to the first character that is not a digit, at least
one; the count is their decimal value, negated after `-`, and the extraction fails
when it is not an `int` or when no digit follows; what `oss << k` writes is read back
as `k`.
The update `global[word] += count` is the `int` addition.
When no word can be extracted, or a word and no count after it, the table is left as
it is, whatever follows; when a word and a count are extracted, the update is applied
and the parser goes on with what follows the digits of the count.
When every token read in a count position is an integer as a whole or does not start
with an integer, this is the reading of the tokens in pairs up to the first pair that
is not well formed. -/
theorem reduction_parser_truncates (g : WordCountMap) (payload : Str) :
    (∀ fuel, (received payload).length < fuel →
      reduce_loop fuel (received payload) g = reduce_payload g payload) ∧
    (∀ ws w r : Str, (∀ x ∈ ws, isspace x = true) → is_word w →
      (∀ c, r.head? = some c → isspace c = true) →
      read_word (ws ++ (w ++ r)) = some (w, r)) ∧
    (∀ ws : Str, (∀ x ∈ ws, isspace x = true) → read_word ws = none) ∧
    (∀ ws sign ds rest : Str, (∀ x ∈ ws, isspace x = true) → is_sign sign → ds ≠ [] →
      (∀ x ∈ ds, isdigit x = true) → (∀ c, rest.head? = some c → isdigit c = false) →
      read_int (ws ++ (sign ++ (ds ++ rest))) =
        if INT_MIN ≤ (if sign = [Char.ofNat 45] then -(digits_value ds : Int)
              else (digits_value ds : Int)) ∧
            (if sign = [Char.ofNat 45] then -(digits_value ds : Int)
              else (digits_value ds : Int)) ≤ INT_MAX
        then some ((if sign = [Char.ofNat 45] then -(digits_value ds : Int)
              else (digits_value ds : Int)), rest)
        else none) ∧
    (∀ ws sign rest : Str, (∀ x ∈ ws, isspace x = true) → is_sign sign →
      (∀ c, rest.head? = some c → isdigit c = false) →
      (sign = [] → ∀ c, rest.head? = some c →
        isspace c = false ∧ c ≠ Char.ofNat 43 ∧ c ≠ Char.ofNat 45) →
      read_int (ws ++ (sign ++ rest)) = none) ∧
    (∀ (ws : Str) (k : Int) (rest : Str), (∀ x ∈ ws, isspace x = true) → in_int_range k →
      (∀ c, rest.head? = some c → isdigit c = false) →
      read_int (ws ++ (print_int k ++ rest)) = some (k, rest)) ∧
    (∀ (word : Str) (count : Int) (w : Str),
      find (add_to g word count) w =
        if word = w then
          (match find g word with
            | none => some (0 + count)
            | some c => some (wrap_int (c + count)))
        else find g w) ∧
    (read_word (received payload) = none → reduce_payload g payload = g) ∧
    (∀ word r, read_word (received payload) = some (word, r) → read_int r = none →
      reduce_payload g payload = g) ∧
    (∀ word r count r', read_word (received payload) = some (word, r) →
      read_int r = some (count, r') →
      reduce_payload g payload = reduce_payload (add_to g word count) r') ∧
    (counts_delimited (stream_words (received payload) []) = true →
      reduce_payload g payload = reduce_tokens (stream_words (received payload) []) g) := by
  refine ⟨?_, ?_, read_word_none, read_int_run, read_int_no_digit, read_int_print_run,
    ?_, ?_, ?_, ?_, ?_⟩
  · intro fuel hf
    exact reduce_loop_fuel _ _ _ _ hf (Nat.lt_succ_self _)
  · intro ws w r hws hw hr
    exact read_word_run ws w r hws hw.1 hw.2 hr
  · intro word count w
    rw [find_add_to]
    cases find g word <;> rfl
  · intro h
    simp only [reduce_payload, reduce_loop, h]
  · intro word r h1 h2
    simp only [reduce_payload, reduce_loop, h1, h2]
  · intro word r count r' h1 h2
    have hs1 := read_word_suffix _ _ _ h1
    have hs2 := read_int_suffix _ _ _ h2
    have hz : NUL ∉ r' :=
      fun hm => NUL_not_mem_received payload (hs1.1.subset (hs2.subset hm))
    have hl := hs2.length_le
    unfold reduce_payload
    rw [received_of_no_NUL r' hz]
    simp only [reduce_loop, h1, h2]
    exact reduce_loop_fuel _ _ _ _ (by omega) (Nat.lt_succ_self _)
  · intro ht
    exact reduce_loop_eq_reduce_tokens _ _ _ (Nat.lt_succ_self _) ht

/-- Witness of C14: in the payload `a 1 b x c 3` the pair `(b, x)` ends the reduction,
the pair `(a, 1)` is added and the pair `(c, 3)` is ignored; in the payload `1st 2 b 3`
the word `1st` starts with an integer and both pairs are added; and adding the count
`2147483647` to the count 1 gives the `int` `-2147483648`. -/
theorem reduction_parser_truncates_witness :
    counts_delimited (stream_words (received "a 1 b x c 3".toList) []) = true ∧
    reduce_payload [("a".toList, 4)] "a 1 b x c 3".toList = [("a".toList, 5)] ∧
    counts_delimited (stream_words (received "1st 2 b 3".toList) []) = true ∧
    reduce_payload [] "1st 2 b 3".toList = [("1st".toList, 2), ("b".toList, 3)] ∧
    reduce_payload [("a".toList, 1)] "a 2147483647".toList = [("a".toList, -2147483648)] :=
  have h1 : counts_delimited (stream_words (received "a 1 b x c 3".toList) []) = true := by
    decide
  have h2 : counts_delimited (stream_words (received "1st 2 b 3".toList) []) = true := by
    decide
  ⟨h1,
    ((reduction_parser_truncates [("a".toList, 4)] "a 1 b x c 3".toList).2.2.2.2.2.2.2.2.2.2
      h1).trans (by decide),
    h2,
    ((reduction_parser_truncates [] "1st 2 b 3".toList).2.2.2.2.2.2.2.2.2.2 h2).trans
      (by decide),
    by decide⟩

/-- C15. Tokens are normalized words: every token of a line is not empty and holds no
white-space character, no punctuation character and no upper-case letter; and the
tokens are, in order, the white-space separated words of the line, each with its
punctuation erased and its letters lower-cased, the words that become empty being
dropped. -/
theorem tokens_are_normalized (line : Str) :
    (∀ w ∈ tokenize line, w ≠ [] ∧
      ∀ c ∈ w, isspace c = false ∧ ispunct c = false ∧ isupper c = false) ∧
    tokenize line =
      ((ws_words line).map (fun word => (word.filter (fun c => !ispunct c)).map tolower)).filter
        (fun w => !w.isEmpty) := by
  refine ⟨fun w hw => ?_, ?_⟩
  · obtain ⟨⟨hne, hsp⟩, _⟩ := tokenize_is_word line w hw
    refine ⟨hne, fun c hc => ?_⟩
    have hn : ∃ u, w = normalize u := by
      unfold tokenize at hw
      obtain ⟨u, _, hu⟩ := List.mem_map.1 (List.mem_filter.1 hw).1
      exact ⟨u, hu.symm⟩
    obtain ⟨u, rfl⟩ := hn
    exact ⟨hsp c hc, normalize_chars u c hc⟩
  · unfold tokenize
    rw [stream_words_eq_ws_words]
    rfl

/-- Witness of C15: a line with punctuation, capitals and a word made of punctuation
only. -/
theorem tokens_are_normalized_witness :
    tokenize "  Hello, World! -- it is 9 AM.".toList
      = ["hello".toList, "world".toList, "it".toList, "is".toList, "9".toList, "am".toList] ∧
    (∀ w ∈ tokenize "  Hello, World! -- it is 9 AM.".toList, w ≠ [] ∧
      ∀ c ∈ w, isspace c = false ∧ ispunct c = false ∧ isupper c = false) :=
  ⟨by decide, (tokens_are_normalized "  Hello, World! -- it is 9 AM.".toList).1⟩

/-- C16. Tokenization is insensitive to surrounding white space: white space put
before and after a line does not change its tokens; and `tokenize` depends on its
argument alone, so equal lines have equal token sequences. -/
theorem tokenize_surrounding_whitespace (line ws1 ws2 : Str)
    (h1 : ∀ c ∈ ws1, isspace c = true) (h2 : ∀ c ∈ ws2, isspace c = true) :
    tokenize (ws1 ++ line ++ ws2) = tokenize line ∧
    (∀ other : Str, other = line → tokenize other = tokenize line) := by
  refine ⟨?_, fun other h => by rw [h]⟩
  unfold tokenize
  rw [stream_words_trailing _ ws2 [] h2, stream_words_leading ws1 line h1]

/-- Witness of C16: a tab and a space before the line, a carriage return and a line
break after it. -/
theorem tokenize_surrounding_whitespace_witness :
    (∀ c ∈ [Char.ofNat 9, Char.ofNat 32], isspace c = true) ∧
    (∀ c ∈ [Char.ofNat 13, Char.ofNat 10], isspace c = true) ∧
    tokenize ([Char.ofNat 9, Char.ofNat 32] ++ "The cat.".toList ++ [Char.ofNat 13, Char.ofNat 10])
      = tokenize "The cat.".toList :=
  have h1 : ∀ c ∈ [Char.ofNat 9, Char.ofNat 32], isspace c = true := by decide
  have h2 : ∀ c ∈ [Char.ofNat 13, Char.ofNat 10], isspace c = true := by decide
  ⟨h1, h2, (tokenize_surrounding_whitespace "The cat.".toList _ _ h1 h2).1⟩

/-- C17, as stated, fails: `total_lines` is an `int`. With `2^31` lines it is `-2^31`,
and for the second of two participants the code computes the start `-2^30` and the
count `-2^30`: the start is below zero and the slice is outside the lines. -/
theorem slices_in_bounds_counterexample :
    (List.replicate 2147483648 ([] : Str)).length = 2147483648 ∧
    total_lines (List.replicate 2147483648 ([] : Str)) = -2147483648 ∧
    int_start (total_lines (List.replicate 2147483648 ([] : Str))) 2 1 = -1073741824 ∧
    int_count (total_lines (List.replicate 2147483648 ([] : Str))) 2 1 = -1073741824 ∧
    ¬ (0 ≤ int_start (total_lines (List.replicate 2147483648 ([] : Str))) 2 1) := by
  have ht : total_lines (List.replicate 2147483648 ([] : Str)) = -2147483648 := by
    unfold total_lines
    rw [List.length_replicate]
    decide
  rw [ht]
  refine ⟨List.length_replicate _ _, rfl, by decide, by decide, by decide⟩

/-- C17, amended. Slices stay in bounds: when the number of lines is at most the
largest `int`, for `P ≥ 1` and `i < P` the divisor is not zero, `total_lines` is the
number of lines, no operation of lines 100-103 leaves the range of `int`, the start
and the count are those of `part_start` and `part_count`, the start is not negative
and the range ends at most at `total_lines`; so the slice has exactly `count_i` lines
and its line `j` is the line `start_i + j` of the input, an index below the number of
lines. -/
theorem slices_in_bounds (all_lines : List Str) (P i : Nat)
    (hn : (all_lines.length : Int) ≤ INT_MAX) (hP : 1 ≤ P) (hi : i < P) :
    (P : Int) ≠ 0 ∧
    total_lines all_lines = (all_lines.length : Int) ∧
    wrap_int ((i : Int) * int_base (total_lines all_lines) P)
      = (i : Int) * int_base (total_lines all_lines) P ∧
    int_start (total_lines all_lines) P i
      = (i : Int) * int_base (total_lines all_lines) P
        + min (i : Int) (int_extra (total_lines all_lines) P) ∧
    int_count (total_lines all_lines) P i
      = int_base (total_lines all_lines) P
        + (if (i : Int) < int_extra (total_lines all_lines) P then 1 else 0) ∧
    int_start (total_lines all_lines) P i = ((part_start all_lines.length P i : Nat) : Int) ∧
    int_count (total_lines all_lines) P i = ((part_count all_lines.length P i : Nat) : Int) ∧
    0 ≤ int_start (total_lines all_lines) P i ∧
    0 ≤ int_count (total_lines all_lines) P i ∧
    int_start (total_lines all_lines) P i + int_count (total_lines all_lines) P i
      ≤ total_lines all_lines ∧
    ((block P all_lines i).length : Int) = int_count (total_lines all_lines) P i ∧
    ∀ j : Nat, (j : Int) < int_count (total_lines all_lines) P i →
      int_start (total_lines all_lines) P i + (j : Int) < (all_lines.length : Int) ∧
      (block P all_lines i)[j]?
        = all_lines[(int_start (total_lines all_lines) P i).toNat + j]? := by
  have ht := total_lines_of_le all_lines hn
  obtain ⟨hw, hs, hc⟩ := int_partition_natCast all_lines.length P i hn hP (Nat.le_of_lt hi)
  have hle := part_end_le all_lines.length P i hP hi
  have hblock : block P all_lines i
      = slice all_lines ((part_start all_lines.length P i : Nat) : Int)
          ((part_count all_lines.length P i : Nat) : Int) := by
    unfold block
    rw [ht, hs, hc]
  have hstart : int_start (all_lines.length : Int) P i
      = (i : Int) * int_base (all_lines.length : Int) P
        + min (i : Int) (int_extra (all_lines.length : Int) P) := by
    have h1 : int_start (all_lines.length : Int) P i
        = wrap_int ((i : Int) * int_base (all_lines.length : Int) P
          + min (i : Int) (int_extra (all_lines.length : Int) P)) := by
      unfold int_start
      rw [hw]
    rw [h1]
    rw [h1] at hs
    have h2 := wrap_int_range ((i : Int) * int_base (all_lines.length : Int) P
          + min (i : Int) (int_extra (all_lines.length : Int) P))
    rw [int_base_natCast, int_extra_natCast] at hs h2 ⊢
    have h3 : ((i : Int) * ((base all_lines.length P : Nat) : Int)
        + min (i : Int) ((extra all_lines.length P : Nat) : Int))
        = ((part_start all_lines.length P i : Nat) : Int) := by
      unfold part_start
      push_cast
      rfl
    rw [h3] at hs ⊢
    exact hs
  have hcount : int_count (all_lines.length : Int) P i
      = int_base (all_lines.length : Int) P
        + (if (i : Int) < int_extra (all_lines.length : Int) P then 1 else 0) := by
    rw [hc, int_base_natCast, int_extra_natCast]
    unfold part_count
    split_ifs <;> first | (push_cast; rfl) | omega
  rw [ht]
  refine ⟨by omega, rfl, hw, hstart, hcount, hs, hc, ?_, ?_, ?_, ?_, ?_⟩
  · rw [hs]
    exact Int.ofNat_nonneg _
  · rw [hc]
    exact Int.ofNat_nonneg _
  · rw [hs, hc]
    omega
  · rw [hc, hblock, length_slice _ _ _ hle]
  · intro j hj
    rw [hc] at hj
    rw [hs]
    have hj' : j < part_count all_lines.length P i := by omega
    refine ⟨by omega, ?_⟩
    rw [hblock, getElem?_slice _ _ _ j hj']
    rfl

/-- Witness of C17: the four lines `a`, `b`, `c\0d`, `e`, two participants, the second
participant: its slice starts at line 2 and has two lines. -/
theorem slices_in_bounds_witness :
    (zero_byte_block_lines.length : Int) ≤ INT_MAX ∧ 1 ≤ 2 ∧ 1 < 2 ∧
    int_start (total_lines zero_byte_block_lines) 2 1 = 2 ∧
    int_count (total_lines zero_byte_block_lines) 2 1 = 2 ∧
    int_start (total_lines zero_byte_block_lines) 2 1
      + int_count (total_lines zero_byte_block_lines) 2 1 ≤ total_lines zero_byte_block_lines ∧
    ((block 2 zero_byte_block_lines 1).length : Int)
      = int_count (total_lines zero_byte_block_lines) 2 1 :=
  have h := slices_in_bounds zero_byte_block_lines 2 1 (by decide) (by decide) (by decide)
  ⟨by decide, by decide, by decide, by decide, by decide, h.2.2.2.2.2.2.2.2.2.1,
    h.2.2.2.2.2.2.2.2.2.2.1⟩

/-- C18. Counting is a homomorphism from concatenation to merge: under any valid
schedules, the table of `xs ++ ys` equals the merge of the table of `xs` with the
table of `ys`; the table of no line is empty; merging the empty table into a table
leaves it as it is, and merging a table with unique keys into the empty table gives
that table. -/
theorem counting_homomorphism :
    (∀ (xs ys : List Str) (s s1 s2 : List (List Nat)),
      ValidSched (xs ++ ys).length s → ValidSched xs.length s1 → ValidSched ys.length s2 →
      TableEq (count_words_sched (xs ++ ys) s)
        (merge_maps (count_words_sched xs s1) (count_words_sched ys s2))) ∧
    (∀ xs ys : List Str,
      TableEq (count_words (xs ++ ys)) (merge_maps (count_words xs) (count_words ys))) ∧
    (∀ sched, count_words_sched [] sched = []) ∧
    count_words [] = [] ∧
    (∀ a : WordCountMap, merge_maps a [] = a) ∧
    (∀ b : WordCountMap, WF b → merge_maps [] b = b ∧ TableEq (merge_maps [] b) b) := by
  have key : ∀ (xs ys : List Str) (s s1 s2 : List (List Nat)),
      ValidSched (xs ++ ys).length s → ValidSched xs.length s1 → ValidSched ys.length s2 →
      TableEq (count_words_sched (xs ++ ys) s)
        (merge_maps (count_words_sched xs s1) (count_words_sched ys s2)) := by
    intro xs ys s s1 s2 h h1 h2 w
    rw [find_count_words_sched _ s h, occurrences_append]
    exact (spec_find_merge _ _ (WF_count_words_sched ys s2) _ _ w
      (find_count_words_sched xs s1 h1 w) (find_count_words_sched ys s2 h2 w)).symm
  refine ⟨key, ?_, count_words_sched_nil, count_words_sched_nil _, fun a => rfl, ?_⟩
  · intro xs ys
    exact key xs ys _ _ _ (validSched_one_thread _) (validSched_one_thread _)
      (validSched_one_thread _)
  · intro b hb
    have h := merge_maps_nil_left b hb
    exact ⟨h, fun w => by rw [h]⟩

/-- Witness of C18: the scenario lines cut after the first line, counted by two
threads on the whole and by one thread on each part. -/
theorem counting_homomorphism_witness :
    TableEq (count_words_sched (["The cat.".toList] ++ ["the CAT sat.".toList,
        "A cat sat on a mat.".toList]) [[2, 0], [1]])
      (merge_maps (count_words_sched ["The cat.".toList] [[0]])
        (count_words_sched ["the CAT sat.".toList, "A cat sat on a mat.".toList] [[0, 1]])) ∧
    merge_maps [] scenario_table = scenario_table :=
  ⟨counting_homomorphism.1 _ _ [[2, 0], [1]] [[0]] [[0, 1]]
    (by show List.Perm [2, 0, 1] [0, 1, 2]; decide)
    (by show List.Perm [0] [0]; decide)
    (by show List.Perm [0, 1] [0, 1]; decide),
   (counting_homomorphism.2.2.2.2.2 scenario_table (by decide)).1⟩

end HybridWordcount
